import Mathlib

/-!
# Separable Laplacian-of-Gaussian filter (Project2/Task5/main5.cpp)

A shallow embedding of `my_image_comp::perform_boundary_extension`, of the
convolution loops of `apply_LOG_filter` and of the clamp in `main`, together
with the properties established about them.

Sample stores are functions from a signed offset (relative to the `buf`
pointer) to a sample, so that the pointer arithmetic of the source
(`first_line[-r * stride + c]`) is kept as it is written.
-/

namespace Project2

/-! ## Bordered image buffer -/

/-- Modelled from the spec: the declaration of `my_image_comp` lives in
`image_comps.h`, which is not among the sources.  The fields are the ones the
code of `main5.cpp` uses (`width`, `height`, `stride`, `border`, `buf`); `buf`
is the sample store addressed relative to the buffer origin, so `buf o` is the
C expression `buf[o]` for a signed offset `o`. -/
structure my_image_comp (α : Type) where
  width : Int
  height : Int
  stride : Int
  border : Int
  buf : Int → α

/-- Logical pixel access: `sample r c` is `buf[r * stride + c]`. -/
def my_image_comp.sample {α : Type} (b : my_image_comp α) (r c : Int) : α :=
  b.buf (r * b.stride + c)

/-- The row pitch leaves room for the interior and both borders
(`stride ≥ width + 2·border`, the data-model invariant of the buffer). -/
def my_image_comp.well_formed {α : Type} (b : my_image_comp α) : Prop :=
  b.width + 2 * b.border ≤ b.stride

instance my_image_comp.well_formed_decidable {α : Type} (b : my_image_comp α) :
    Decidable b.well_formed :=
  inferInstanceAs (Decidable (b.width + 2 * b.border ≤ b.stride))

/-- One assignment `m[p.1] = m[p.2]` on a sample store. -/
def copy_sample {α : Type} (m : Int → α) (p : Int × Int) : Int → α :=
  fun o => if o = p.1 then m p.2 else m o

/-- A sequence of assignments `m[dst] = m[src]`, executed in order. -/
def run_copies {α : Type} (l : List (Int × Int)) (m : Int → α) : Int → α :=
  l.foldl copy_sample m

/-- First loop nest of `perform_boundary_extension` (lines 35-38), as the
sequence of (destination, source) offsets it assigns:
`first_line[-r * stride + c] = first_line[r * stride + c]` for `r = 1..border`,
`c = 0..width-1`, where `first_line = buf`. -/
def extend_upwards {α : Type} (b : my_image_comp α) : List (Int × Int) :=
  (List.range b.border.toNat).flatMap fun (i : Nat) =>
    (List.range b.width.toNat).map fun (j : Nat) =>
      let r : Int := (i : Int) + 1
      let c : Int := (j : Int)
      (-r * b.stride + c, r * b.stride + c)

/-- Second loop nest (lines 41-44):
`last_line[r * stride + c] = last_line[-r * stride + c]` with
`last_line = buf + (height - 1) * stride`. -/
def extend_downwards {α : Type} (b : my_image_comp α) : List (Int × Int) :=
  (List.range b.border.toNat).flatMap fun (i : Nat) =>
    (List.range b.width.toNat).map fun (j : Nat) =>
      let last_line : Int := (b.height - 1) * b.stride
      let r : Int := (i : Int) + 1
      let c : Int := (j : Int)
      (last_line + (r * b.stride + c), last_line + (-r * b.stride + c))

/-- Third loop nest (lines 47-54): `height + 2 * border` rows starting at
`left_edge = buf - border * stride`, each advanced by `stride`; in every row,
for `c = 1..border`, first `left_edge[-c] = left_edge[c]` and then
`right_edge[c] = right_edge[-c]` with `right_edge = left_edge + width - 1`. -/
def extend_sideways {α : Type} (b : my_image_comp α) : List (Int × Int) :=
  (List.range (b.height + 2 * b.border).toNat).flatMap fun (i : Nat) =>
    (List.range b.border.toNat).flatMap fun (j : Nat) =>
      let left_edge : Int := -(b.border * b.stride) + (i : Int) * b.stride
      let right_edge : Int := left_edge + b.width - 1
      let c : Int := (j : Int) + 1
      [(left_edge + -c, left_edge + c), (right_edge + c, right_edge + -c)]

/-- All assignments of `perform_boundary_extension`, in program order. -/
def extension_copies {α : Type} (b : my_image_comp α) : List (Int × Int) :=
  extend_upwards b ++ (extend_downwards b ++ extend_sideways b)

/-- The method `my_image_comp::perform_boundary_extension` (lines 30-55). -/
def my_image_comp.perform_boundary_extension {α : Type} (b : my_image_comp α) :
    my_image_comp α :=
  { b with buf := run_copies (extension_copies b) b.buf }

/-! ## Convolution engine: definitions -/

/-- Number of low-order bits of `a` that do not fit into a significand of 24
bits (`fuel` bounds the number of halvings; `a` itself is always enough). -/
def spare_bits : Nat → Nat → Nat
  | 0, _ => 0
  | fuel + 1, a => if a < 2 ^ 24 then 0 else spare_bits fuel (a / 2) + 1

/-- The single-precision (`float`) value nearest to the integer `n`: 24
significant bits, round to nearest, ties to even.  This is the conversion
`int → float`, and also the rounding of a `float` sum or product whose exact
value is the integer `n`.  (All values met in the filter are far below the
largest finite `float`.) -/
def f32 (n : Int) : Int :=
  let a := n.natAbs
  let e := spare_bits a a
  let q := a / 2 ^ e
  let r := a % 2 ^ e
  let q' := if 2 ^ e < 2 * r ∨ (2 * r = 2 ^ e ∧ q % 2 = 1) then q + 1 else q
  n.sign * ((q' * 2 ^ e : Nat) : Int)

/-- The values of a signed 32-bit `int`. -/
def in_int32 (n : Int) : Prop := -2 ^ 31 ≤ n ∧ n < 2 ^ 31

instance in_int32_decidable (n : Int) : Decidable (in_int32 n) :=
  inferInstanceAs (Decidable (-2 ^ 31 ≤ n ∧ n < 2 ^ 31))

/-- One pass of `sum += ip[..] * h[..]` (lines 192, 205, 217, 230) with
`int sum`, a `float` sample `x` holding an integer, and an `int` tap `h`: the
tap is converted to `float`, the product is a `float` product, `sum` is
converted to `float`, the sum is a `float` sum, and the result (an integer) is
converted back to `int`. -/
def accumulate_step (sum x h : Int) : Int :=
  f32 (f32 sum + f32 (x * f32 h))

/-- The first `n` passes of the loop
`for (filter_spot = -H; filter_spot <= H; filter_spot++) sum += ip[..] * h[H + filter_spot]`
starting from `sum = 0`; `ip k` is the sample read for `filter_spot = k`.
The value is that of the code's `int sum` as long as every running sum is
`in_int32`; once one is not, the conversion `float → int` of the code is
undefined, and the value given here stands for nothing in the code.  The
statements below give the range of the running sums wherever they give a
value. -/
def accumulate (ip : Int → Int) (h : List Int) (H : Nat) : Nat → Int
  | 0 => 0
  | n + 1 => accumulate_step (accumulate ip h H n) (ip ((n : Int) - H)) (h.getD n 0)

/-- The pixels `(r, c)` visited by `for r < height` / `for c < width`, in order. -/
def pixels (height width : Int) : List (Int × Int) :=
  (List.range height.toNat).flatMap fun (r : Nat) =>
    (List.range width.toNat).map fun (c : Nat) => ((r : Int), (c : Int))

/-- The assignment `m[o] = v`. -/
def write_sample {α : Type} (m : Int → α) (o : Int) (v : α) : Int → α :=
  fun i => if i = o then v else m i

/-- Level shift (lines 130-135): `*ip = ip[0] - 128` for every interior pixel
of `in`. -/
def level_shift (inp : my_image_comp Int) : my_image_comp Int :=
  { inp with buf := (pixels inp.height inp.width).foldl (fun m rc =>
      let ip : Int := rc.1 * inp.stride + rc.2
      write_sample m ip (f32 (m ip - 128))) inp.buf }

/-- Horizontal convolution (lines 185-194 with `h_11` into `inter_1`, lines
210-219 with `h_21` into `inter_2`): for every pixel of `out`'s extent,
`sum` accumulates `ip[filter_spot] * h[H + filter_spot]` and `*op = (sum >> K)`
(an `int` stored into a `float`). -/
def horizontal_stage (inp : my_image_comp Int) (out_height out_width : Int)
    (inter : my_image_comp Int) (h : List Int) (H K : Nat) : my_image_comp Int :=
  { inter with buf := (pixels out_height out_width).foldl (fun m rc =>
      let ip : Int := rc.1 * inp.stride + rc.2
      let op : Int := rc.1 * inter.stride + rc.2
      let sum := accumulate (fun filter_spot => inp.buf (ip + filter_spot)) h H (2 * H + 1)
      write_sample m op (f32 (sum >>> K))) inter.buf }

/-- Vertical convolution (lines 198-207 with `h_12` from `inter_1` into `y1`,
lines 223-232 with `h_22` from `inter_2` into `y2`): as the horizontal one,
reading `ip[filter_spot * inter->stride]`. -/
def vertical_stage (inter : my_image_comp Int) (out_height out_width : Int)
    (y : my_image_comp Int) (h : List Int) (H K : Nat) : my_image_comp Int :=
  { y with buf := (pixels out_height out_width).foldl (fun m rc =>
      let ip : Int := rc.1 * inter.stride + rc.2
      let op : Int := rc.1 * y.stride + rc.2
      let sum := accumulate (fun filter_spot => inter.buf (ip + filter_spot * inter.stride))
        h H (2 * H + 1)
      write_sample m op (f32 (sum >>> K))) y.buf }

/-- The value stored by `int sum = y1_p[0] + y2_p[0]; *op = (sum*alpha) + 128;`
(lines 241-242) for partial results `p1`, `p2` holding integers.  The `float`
operations of this line are taken exactly, as rational arithmetic. -/
def combine_sample (p1 p2 : Int) (alpha : ℚ) : ℚ :=
  ((p1 + p2 : Int) : ℚ) * alpha + 128

/-- Combination loop (lines 235-243). -/
def combine_stage (y1 y2 : my_image_comp Int) (out : my_image_comp ℚ) (alpha : ℚ) :
    my_image_comp ℚ :=
  { out with buf := (pixels out.height out.width).foldl (fun m rc =>
      let y1_p : Int := rc.1 * y1.stride + rc.2
      let y2_p : Int := rc.1 * y2.stride + rc.2
      let op : Int := rc.1 * out.stride + rc.2
      write_sample m op (combine_sample (y1.buf y1_p) (y2.buf y2_p) alpha)) out.buf }

/-- The six buffers handed to `apply_LOG_filter`; they are separate
allocations. -/
structure LOG_buffers where
  inp : my_image_comp Int
  out : my_image_comp ℚ
  inter_1 : my_image_comp Int
  inter_2 : my_image_comp Int
  y1 : my_image_comp Int
  y2 : my_image_comp Int

/-- The function `apply_LOG_filter` from the level shift on (lines 128-243).
The integer kernels `h_11 .. h_22` and the shift `K`, which lines 75-149
compute from `sigma` with `exp`, `pow` and `log2`, are parameters.  A failed
`assert` (lines 178-180) aborts: the result is `Except.error` with the buffers
as they are at that point. -/
def apply_LOG_filter (s : LOG_buffers) (h_11 h_12 h_21 h_22 : List Int) (H K : Nat)
    (alpha : ℚ) : Except LOG_buffers LOG_buffers :=
  let s0 : LOG_buffers := { s with inp := level_shift s.inp }
  if (H : Int) ≤ s0.inp.border ∧ (H : Int) ≤ s0.inter_1.border ∧
      (H : Int) ≤ s0.inter_2.border then
    let inter_1 := (horizontal_stage s0.inp s0.out.height s0.out.width s0.inter_1 h_11 H
      K).perform_boundary_extension
    let y1 := vertical_stage inter_1 s0.out.height s0.out.width s0.y1 h_12 H K
    let inter_2 := (horizontal_stage s0.inp s0.out.height s0.out.width s0.inter_2 h_21 H
      K).perform_boundary_extension
    let y2 := vertical_stage inter_2 s0.out.height s0.out.width s0.y2 h_22 H K
    Except.ok { inp := s0.inp, out := combine_stage y1 y2 s0.out alpha,
                inter_1 := inter_1, inter_2 := inter_2, y1 := y1, y2 := y2 }
  else
    Except.error s0

/-- The clamp of `main` (lines 340-343). -/
def clamp_sample (x : ℚ) : ℚ :=
  if x > 255 then 255 else if x < 0 then 0 else x

/-- Modelled from the spec: `io_byte` is declared in `io_bmp.h`, which is not
among the sources; it is the byte type of the raster rows (values 0..255).
`*dst = (int)src[c]` (line 345) truncates toward zero and keeps the low byte. -/
def to_io_byte (x : ℚ) : Int :=
  (if 0 ≤ x then ⌊x⌋ else ⌈x⌉) % 256

/-- The byte `main` emits for a pixel whose partial results are `p1`, `p2`:
combination (line 241-242), clamp (lines 340-343) and cast (line 345). -/
def emitted_byte (p1 p2 : Int) (alpha : ℚ) : Int :=
  to_io_byte (clamp_sample (combine_sample p1 p2 alpha))

/-- The combination as the specification words it:
`clamp(round((p1 + p2) × alpha) + 128, 0, 255)`. -/
def spec_output (p1 p2 : Int) (alpha : ℚ) : Int :=
  max 0 (min 255 (round (((p1 + p2 : Int) : ℚ) * alpha) + 128))

/-- The shift of line 126, `int K = 32 - 8 - log2(A)`, for a gain `A > 0`: the
value `24 - log2(A)` converted to `int`, that is truncated toward zero.  With
`f = ⌊log2(A)⌋`: when `A = 2^f` the value is the integer `24 - f`; otherwise it
lies strictly between `23 - f` and `24 - f`, and truncation yields `23 - f`
when that is not negative and `24 - f` else.  (`log2` is taken exactly.) -/
def shift_K (A : ℚ) : Int :=
  let f := Int.log 2 A
  if A = (2 : ℚ) ^ f then 32 - 8 - f
  else if f < 24 then 32 - 8 - f - 1
  else 32 - 8 - f

/-- C `round`: the nearest integer, halfway cases away from zero. -/
def round_half_away (x : ℚ) : Int :=
  if 0 ≤ x then ⌊x + 1 / 2⌋ else ⌈x - 1 / 2⌉

/-- The value `round(h_f * pow(2, K))` of lines 145-148, before it is stored
in an `int`. -/
def scaled_tap (h_f : ℚ) (K : Int) : Int :=
  round_half_away (h_f * (2 : ℚ) ^ K)

/-- Conversion of an integer-valued `double` to `int`: defined only inside the
range of a 32-bit `int`. -/
def to_int32 (n : Int) : Option Int :=
  if in_int32 n then some n else none

/-- Lines 143-149 for one kernel: every tap is scaled by the same `2^K`,
rounded and stored in an `int`. -/
def convert_filter (h_f : List ℚ) (K : Int) : List (Option Int) :=
  h_f.map fun t => to_int32 (scaled_tap t K)

/-- The integer kernel `h_11` that lines 79-149 produce for `sigma = 1`
(`H = 3`, `K = 23`): the taps `round(h_11_f[i] * 2^23)`.  The centre float tap
is `-2670177/2^24`; scaled it is `-1335088.5`, which `round` takes away from
zero to `-1335089`. -/
def h_11_sigma_1 : List Int := [118652, 542054, 0, -1335089, 0, 542054, 118652]

/-- One image row of seven level-shifted samples (pixel values
128, 2, 128, 190, 128, 221, 128 minus 128), with a border of three. -/
def row_buffer : my_image_comp Int :=
  ⟨7, 1, 13, 3, fun o => [0, -126, 0, 62, 0, 93, 0].getD o.toNat 0⟩

/-- A buffer of the same shape holding zeros. -/
def zero_buffer : my_image_comp Int := ⟨7, 1, 13, 3, fun _ => 0⟩

/-- The row that symmetric extension stands for at row index `r` of an image
of the given height: `-r` above the image, `2·(height-1) - r` below it. -/
def mirror_row (height r : Int) : Int :=
  if r < 0 then -r else if r > height - 1 then 2 * (height - 1) - r else r

/-- The integer kernel `h_12` that lines 79-149 produce for `sigma = 1`
(`H = 3`, `K = 23`): the taps `round(h_12_f[i] * 2^23)`. -/
def h_12_sigma_1 : List Int := [93189, 1135275, 5087948, 8388608, 5087948, 1135275, 93189]

/-- An intermediate buffer of four columns and seven rows (border three, row
pitch ten) whose first column holds 0, 0, -13, -1, 13, 0, 0. -/
def column_buffer : my_image_comp Int :=
  ⟨4, 7, 10, 3, fun o => if o % 10 = 0 then [0, 0, -13, -1, 13, 0, 0].getD (o / 10).toNat 0
    else 0⟩

/-- A borderless buffer of four columns and seven rows holding zeros. -/
def zero_plane : my_image_comp Int := ⟨4, 7, 4, 0, fun _ => 0⟩

/-! ### The same assignments, by (row, column) cell -/

/-- Offset of the cell `(row, column)` for row pitch `s`. -/
def cell_offset (s : Int) (x : Int × Int) : Int := x.1 * s + x.2

/-- A (destination, source) pair of cells, turned into a pair of offsets. -/
def cell_copy (s : Int) (p : (Int × Int) × (Int × Int)) : Int × Int :=
  (cell_offset s p.1, cell_offset s p.2)

/-- Cells of the first loop nest. -/
def upward_cells (B W : Int) : List ((Int × Int) × (Int × Int)) :=
  (List.range B.toNat).flatMap fun (i : Nat) =>
    (List.range W.toNat).map fun (j : Nat) =>
      ((-((i : Int) + 1), (j : Int)), ((i : Int) + 1, (j : Int)))

/-- Cells of the second loop nest. -/
def downward_cells (B W Ht : Int) : List ((Int × Int) × (Int × Int)) :=
  (List.range B.toNat).flatMap fun (i : Nat) =>
    (List.range W.toNat).map fun (j : Nat) =>
      ((Ht - 1 + ((i : Int) + 1), (j : Int)), (Ht - 1 - ((i : Int) + 1), (j : Int)))

/-- Cells of the third loop nest. -/
def sideways_cells (B W Ht : Int) : List ((Int × Int) × (Int × Int)) :=
  (List.range (Ht + 2 * B).toNat).flatMap fun (i : Nat) =>
    (List.range B.toNat).flatMap fun (j : Nat) =>
      [((-B + (i : Int), -((j : Int) + 1)), (-B + (i : Int), (j : Int) + 1)),
       ((-B + (i : Int), W - 1 + ((j : Int) + 1)), (-B + (i : Int), W - 1 - ((j : Int) + 1)))]

/-- A later assignment `q` cannot break the equation `m[p.1] = m[p.2]`
established by an earlier assignment `p`: it writes neither `p.1`, nor `p.2`
unless it copies `p.1` there. -/
def harmless {β : Type} (p q : β × β) : Prop :=
  q.1 ≠ p.1 ∧ (q.1 = p.2 → q.2 = p.1)

/-- All cells of `perform_boundary_extension`, in program order. -/
def extension_cells (B W Ht : Int) : List ((Int × Int) × (Int × Int)) :=
  upward_cells B W ++ (downward_cells B W Ht ++ sideways_cells B W Ht)

/-- A 3 by 3 buffer with a border of one and row pitch five whose sample at
offset `o` is `o` itself. -/
def buffer_3x3 : my_image_comp Int := ⟨3, 3, 5, 1, fun o => o⟩

/-- A buffer of one column and two rows with a border of two (row pitch five)
whose sample at offset `o` is `o` itself. -/
def buffer_1x2 : my_image_comp Int := ⟨1, 2, 5, 2, fun o => o⟩

/-- The float kernel `h_11_f` that lines 79-87 produce for `sigma = 0.2`
(`H = 1`), as exact rationals. -/
def h_11_f_sigma_02 : List ℚ := [9552799 / 1073741824, -13037973 / 131072, 9552799 / 1073741824]

/-- The gain `A` that lines 119-122 produce for `sigma = 0.2`. -/
def gain_sigma_02 : ℚ := 621927 / 16777216

/-! ## The pipeline of `main` -/

/-- The part of `main` between reading and writing the image (lines 300-322):
symmetric extension of the input component, then `apply_LOG_filter`.  `s.inp`
is the input component as read (its interior holds the bytes of the image),
the other buffers are the freshly allocated ones. -/
def main_filter (s : LOG_buffers) (h_11 h_12 h_21 h_22 : List Int) (H K : Nat)
    (alpha : ℚ) : Except LOG_buffers LOG_buffers :=
  apply_LOG_filter { s with inp := s.inp.perform_boundary_extension } h_11 h_12 h_21 h_22
    H K alpha

/-- The byte `main` writes for pixel `(r, c)` of the output component (lines
336-345): clamp, then cast. -/
def output_byte (out : my_image_comp ℚ) (r c : Int) : Int :=
  to_io_byte (clamp_sample (out.sample r c))

/-- The buffers as `main` allocates them (lines 274-276 and 305-317): all of
the extent of the image; input and intermediates with a border of at least `H`
and a row pitch with room for it; every row pitch at least the width. -/
def LOG_buffers.consistent (s : LOG_buffers) (H : Nat) : Prop :=
  (s.inp.width = s.out.width ∧ s.inp.height = s.out.height) ∧
  (s.inter_1.width = s.out.width ∧ s.inter_1.height = s.out.height) ∧
  (s.inter_2.width = s.out.width ∧ s.inter_2.height = s.out.height) ∧
  (s.inp.well_formed ∧ s.inter_1.well_formed ∧ s.inter_2.well_formed) ∧
  ((H : Int) ≤ s.inp.border ∧ (H : Int) ≤ s.inter_1.border ∧ (H : Int) ≤ s.inter_2.border) ∧
  (s.out.width ≤ s.y1.stride ∧ s.out.width ≤ s.y2.stride ∧ s.out.width ≤ s.out.stride)

instance LOG_buffers.consistent_decidable (s : LOG_buffers) (H : Nat) :
    Decidable (s.consistent H) := by
  unfold LOG_buffers.consistent
  infer_instance

/-- Every interior sample is a byte value. -/
def eight_bit (b : my_image_comp Int) : Prop :=
  ∀ r c : Int, 0 ≤ r ∧ r < b.height → 0 ≤ c ∧ c < b.width →
    0 ≤ b.sample r c ∧ b.sample r c ≤ 255

/-- What a horizontal stage stores at pixel `(r, c)` when it reads the buffer
`X` with kernel `h`. -/
def inter_value (X : my_image_comp Int) (h : List Int) (H K : Nat) (r c : Int) : Int :=
  f32 (accumulate (fun k => X.sample r (c + k)) h H (2 * H + 1) >>> K)

/-- What a whole path (horizontal stage with `h_a`, symmetric extension,
vertical stage with `h_b`) stores at pixel `(r, c)`. -/
def path_value (X : my_image_comp Int) (height : Int) (h_a h_b : List Int) (H K : Nat)
    (r c : Int) : Int :=
  f32 (accumulate (fun k => inter_value X h_a H K (mirror_row height (r + k)) c) h_b H
    (2 * H + 1) >>> K)

/-- An image component as `main` fills it: `rows` in the interior, zeros
elsewhere.  Modelled from the spec: `init(height, width, border)` is declared
in `image_comps.h`, which is not among the sources; it sets the row pitch to
`width + 2·border`. -/
def image_buffer (width height border : Int) (rows : List (List Int)) : my_image_comp Int :=
  ⟨width, height, width + 2 * border, border, fun o =>
    let r := o / (width + 2 * border)
    let c := o % (width + 2 * border)
    if 0 ≤ r ∧ r < height ∧ c < width then (rows.getD r.toNat []).getD c.toNat 0 else 0⟩

/-- The buffers of `main` for an input component `inp` (lines 305-317): output
and partial results without border, intermediates with the border of the
input, all of them holding zeros. -/
def fresh_buffers (inp : my_image_comp Int) : LOG_buffers :=
  { inp := inp,
    out := ⟨inp.width, inp.height, inp.width, 0, fun _ => 0⟩,
    inter_1 := ⟨inp.width, inp.height, inp.width + 2 * inp.border, inp.border, fun _ => 0⟩,
    inter_2 := ⟨inp.width, inp.height, inp.width + 2 * inp.border, inp.border, fun _ => 0⟩,
    y1 := ⟨inp.width, inp.height, inp.width, 0, fun _ => 0⟩,
    y2 := ⟨inp.width, inp.height, inp.width, 0, fun _ => 0⟩ }

/-- The same buffers holding other values: ones in the intermediates and
sevens elsewhere. -/
def used_buffers (inp : my_image_comp Int) : LOG_buffers :=
  { inp := inp,
    out := ⟨inp.width, inp.height, inp.width, 0, fun _ => 7⟩,
    inter_1 := ⟨inp.width, inp.height, inp.width + 2 * inp.border, inp.border, fun _ => 1⟩,
    inter_2 := ⟨inp.width, inp.height, inp.width + 2 * inp.border, inp.border, fun _ => 1⟩,
    y1 := ⟨inp.width, inp.height, inp.width, 0, fun _ => 7⟩,
    y2 := ⟨inp.width, inp.height, inp.width, 0, fun _ => 7⟩ }

/-- The integer kernel `h_11` (and `h_22`) that lines 79-149 produce for
`sigma = 0.5` (`H = 2`, `K = 21`). -/
def h_11_sigma_05 : List Int := [26872, 2168215, -5340354, 2168215, 26872]

/-- The integer kernel `h_12` (and `h_21`) for `sigma = 0.5`. -/
def h_12_sigma_05 : List Int := [704, 283819, 2097152, 283819, 704]

/-- The integer kernel `h_11` that lines 79-149 produce for `sigma = 0.3`
(`H = 1`, `K = 22`). -/
def h_11_sigma_03 : List Int := [3221416, -82412856, 3221416]

/-- A 3 by 3 image of constant value 128, border two. -/
def grey_3x3 : my_image_comp Int :=
  image_buffer 3 3 2 [[128, 128, 128], [128, 128, 128], [128, 128, 128]]

/-- A 3 by 3 image of zeros, border one. -/
def black_3x3 : my_image_comp Int :=
  image_buffer 3 3 1 [[0, 0, 0], [0, 0, 0], [0, 0, 0]]

/-- A 5 by 5 image of zeros, border two. -/
def black_5x5 : my_image_comp Int :=
  image_buffer 5 5 2 [[0, 0, 0, 0, 0], [0, 0, 0, 0, 0], [0, 0, 0, 0, 0], [0, 0, 0, 0, 0],
    [0, 0, 0, 0, 0]]

/-- A buffer that holds `v` everywhere, with row pitch `width + 2·border`. -/
def flat_buffer (width height border v : Int) : my_image_comp Int :=
  ⟨width, height, width + 2 * border, border, fun _ => v⟩

/-! ## Bounds on the accumulators -/

/-- An upper bound for the magnitude of a value of magnitude at most `m` after
rounding to single precision: rounding moves it by less than one unit in the
last place, which is at most `m / 2^23`. -/
def inflate (m : Nat) : Nat := m + m / 2 ^ 23

/-- A bound for the magnitude of the accumulator after `n` passes of the inner
loop, from bounds `xb[i]` on the magnitude of the sample and `hb[i]` on the
magnitude of the tap of pass `i`. -/
def accumulate_bound (xb hb : List Nat) : Nat → Nat
  | 0 => 0
  | n + 1 =>
    inflate (inflate (accumulate_bound xb hb n) + inflate (xb.getD n 0 * inflate (hb.getD n 0)))

/-- Every tap of `h` is at most the corresponding entry of `m` in magnitude. -/
def within_taps (h : List Int) (m : List Nat) : Prop :=
  ∀ i, i < m.length → (h.getD i 0).natAbs ≤ m.getD i 0

instance within_taps_decidable (h : List Int) (m : List Nat) : Decidable (within_taps h m) :=
  inferInstanceAs (Decidable (∀ i, i < m.length → (h.getD i 0).natAbs ≤ m.getD i 0))

/-- Magnitudes of the taps of `h_11_sigma_05`, with a margin of eight. -/
def taps_11_sigma_05 : List Nat := [26880, 2168223, 5340362, 2168223, 26880]

/-- Magnitudes of the taps of `h_12_sigma_05`, with a margin of eight. -/
def taps_12_sigma_05 : List Nat := [712, 283827, 2097160, 283827, 712]

/-! ## Kernels and mirrored images -/

/-- Lines 79-87 for one kernel: the float tap stored at index `H + location` is
an expression in `location * location` (and `sigma`).  `g` stands for that
expression, which uses `exp` and `pow` and is not modelled. -/
def float_kernel (g : Int → ℚ) (H : Nat) : List ℚ :=
  (List.range (2 * H + 1)).map fun (i : Nat) => g (((i : Int) - H) * ((i : Int) - H))

/-- Lines 143-149 for one kernel: the taps `round(h_f[i] * pow(2, K))`, for
taps that fit the `int` they are stored in (`convert_filter` has the check). -/
def integer_kernel (g : Int → ℚ) (H : Nat) (K : Int) : List Int :=
  (float_kernel g H).map fun t => scaled_tap t K

/-- The kernel reads the same from both ends: `h[i] = h[2H - i]`, that is
`h[H + k] = h[H - k]`. -/
def symmetric_kernel (h : List Int) (H : Nat) : Prop :=
  ∀ i, i ≤ 2 * H → h.getD i 0 = h.getD (2 * H - i) 0

instance symmetric_kernel_decidable (h : List Int) (H : Nat) :
    Decidable (symmetric_kernel h H) :=
  inferInstanceAs (Decidable (∀ i, i ≤ 2 * H → h.getD i 0 = h.getD (2 * H - i) 0))

/-- The image in `b'` is the image in `b` mirrored left to right: column `c`
holds what column `width - 1 - c` of `b` holds. -/
def mirror_image (b b' : my_image_comp Int) : Prop :=
  ∀ p ∈ pixels b.height b.width, b'.sample p.1 p.2 = b.sample p.1 (b.width - 1 - p.2)

instance mirror_image_decidable (b b' : my_image_comp Int) : Decidable (mirror_image b b') :=
  inferInstanceAs (Decidable (∀ p ∈ pixels b.height b.width,
    b'.sample p.1 p.2 = b.sample p.1 (b.width - 1 - p.2)))

/-- Every interior sample is a byte value, pixel by pixel. -/
def eight_bit_pixels (b : my_image_comp Int) : Prop :=
  ∀ p ∈ pixels b.height b.width, 0 ≤ b.sample p.1 p.2 ∧ b.sample p.1 p.2 ≤ 255

instance eight_bit_pixels_decidable (b : my_image_comp Int) : Decidable (eight_bit_pixels b) :=
  inferInstanceAs (Decidable (∀ p ∈ pixels b.height b.width,
    0 ≤ b.sample p.1 p.2 ∧ b.sample p.1 p.2 ≤ 255))

/-- A 3 by 3 image, border two. -/
def sample_3x3 : my_image_comp Int :=
  image_buffer 3 3 2 [[91, 201, 31], [128, 132, 173], [73, 72, 229]]

/-- The image `sample_3x3` mirrored left to right. -/
def sample_3x3_mirrored : my_image_comp Int :=
  image_buffer 3 3 2 [[31, 201, 91], [173, 132, 128], [229, 72, 73]]

/-- The single-precision taps of `h_11_f` (and `h_22_f`) for `sigma = 0.5`, as
a function of `location * location`. -/
def h_11_f_sigma_05 (t : Int) : ℚ :=
  if t = 0 then -2670177 / 2 ^ 20 else if t = 1 then 2168215 / 2 ^ 21 else 13758637 / 2 ^ 30

/-- The single-precision taps of `h_12_f` (and `h_21_f`) for `sigma = 0.5`, as
a function of `location * location`. -/
def h_12_f_sigma_05 (t : Int) : ℚ :=
  if t = 0 then 1 else if t = 1 then 9082197 / 2 ^ 26 else 1440801 / 2 ^ 32

/-- The gain `A` that lines 119-122 produce for `sigma = 0.5`. -/
def gain_sigma_05 : ℚ := 5850871 / 1048576

/-- No accumulator of the two horizontal and the two vertical stages leaves the
range of a 32-bit `int` at pixel `(r, c)` after `n` passes of the inner loop
(`res` holds the buffers as the filter leaves them). -/
def accumulators_in_range (res : LOG_buffers) (h_11 h_12 h_21 h_22 : List Int) (H : Nat)
    (r c : Int) (n : Nat) : Prop :=
  in_int32 (accumulate (fun k => res.inp.sample r (c + k)) h_11 H n) ∧
  in_int32 (accumulate (fun k => res.inter_1.sample (r + k) c) h_12 H n) ∧
  in_int32 (accumulate (fun k => res.inp.sample r (c + k)) h_21 H n) ∧
  in_int32 (accumulate (fun k => res.inter_2.sample (r + k) c) h_22 H n)

/-! ### Lemmas on sequences of assignments -/

theorem run_copies_nil {α : Type} (m : Int → α) : run_copies [] m = m := rfl

theorem run_copies_cons {α : Type} (p : Int × Int) (l : List (Int × Int)) (m : Int → α) :
    run_copies (p :: l) m = run_copies l (copy_sample m p) := rfl

theorem run_copies_append {α : Type} (l₁ l₂ : List (Int × Int)) (m : Int → α) :
    run_copies (l₁ ++ l₂) m = run_copies l₂ (run_copies l₁ m) := by
  simp [run_copies, List.foldl_append]

/-- An offset that no assignment writes keeps its sample. -/
theorem run_copies_frame {α : Type} (l : List (Int × Int)) (m : Int → α) (o : Int)
    (h : ∀ p ∈ l, p.1 ≠ o) : run_copies l m o = m o := by
  induction l generalizing m with
  | nil => rfl
  | cons p l ih =>
    rw [run_copies_cons, ih _ (fun q hq => h q (List.mem_cons_of_mem _ hq))]
    have hp : o ≠ p.1 := fun e => h p (List.mem_cons_self _ _) e.symm
    simp [copy_sample, hp]

/-- A destination whose source is never written, and which is only ever
assigned from that source, ends up holding the source's initial sample. -/
theorem run_copies_copy {α : Type} (l : List (Int × Int)) (m : Int → α) (d s : Int)
    (hmem : (d, s) ∈ l) (hsrc : ∀ q ∈ l, q.1 ≠ s) (hdst : ∀ q ∈ l, q.1 = d → q.2 = s) :
    run_copies l m d = m s := by
  induction l generalizing m with
  | nil => simp at hmem
  | cons p l ih =>
    rw [run_copies_cons]
    have hps : s ≠ p.1 := fun e => hsrc p (List.mem_cons_self _ _) e.symm
    have hm : copy_sample m p s = m s := by simp [copy_sample, hps]
    by_cases hin : (d, s) ∈ l
    · rw [ih _ hin (fun q hq => hsrc q (List.mem_cons_of_mem _ hq))
        (fun q hq => hdst q (List.mem_cons_of_mem _ hq)), hm]
    · by_cases hw : ∃ q ∈ l, q.1 = d
      · obtain ⟨q, hq, hqd⟩ := hw
        have hq2 : q.2 = s := hdst q (List.mem_cons_of_mem _ hq) hqd
        have : (d, s) ∈ l := by
          have : q = (d, s) := Prod.ext hqd hq2
          rwa [← this]
        exact absurd this hin
      · have hpd : p = (d, s) := by
          rcases List.mem_cons.1 hmem with h | h
          · exact h.symm
          · exact absurd h hin
        rw [run_copies_frame _ _ _ (fun q hq e => hw ⟨q, hq, e⟩)]
        simp [copy_sample, hpd]

/-- A store on which every assignment's two sides already agree is unchanged. -/
theorem run_copies_fixed {α : Type} (l : List (Int × Int)) (m : Int → α)
    (h : ∀ p ∈ l, m p.1 = m p.2) : run_copies l m = m := by
  induction l with
  | nil => rfl
  | cons p l ih =>
    have hp : copy_sample m p = m := by
      funext o
      by_cases e : o = p.1
      · simp [copy_sample, e, (h p (List.mem_cons_self _ _)).symm]
      · simp [copy_sample, e]
    rw [run_copies_cons, hp]
    exact ih (fun q hq => h q (List.mem_cons_of_mem _ hq))

/-- An equation between two offsets survives a harmless assignment. -/
theorem copy_sample_keeps {α : Type} (m : Int → α) (p q : Int × Int)
    (hq : harmless p q) (e : m p.1 = m p.2) :
    copy_sample m q p.1 = copy_sample m q p.2 := by
  obtain ⟨h1, h2⟩ := hq
  have a : p.1 ≠ q.1 := fun x => h1 x.symm
  by_cases b : p.2 = q.1
  · have c : q.2 = p.1 := h2 b.symm
    simp [copy_sample, a, b, c]
  · simp [copy_sample, a, b, e]

theorem run_copies_keeps {α : Type} (l : List (Int × Int)) (m : Int → α) (p : Int × Int)
    (hl : ∀ q ∈ l, harmless p q) (e : m p.1 = m p.2) :
    run_copies l m p.1 = run_copies l m p.2 := by
  induction l generalizing m with
  | nil => exact e
  | cons q l ih =>
    rw [run_copies_cons]
    exact ih _ (fun x hx => hl x (List.mem_cons_of_mem _ hx))
      (copy_sample_keeps m p q (hl q (List.mem_cons_self _ _)) e)

/-- When every assignment is harmless to all earlier ones, the final store
satisfies the equation of every assignment. -/
theorem run_copies_settled {α : Type} (l : List (Int × Int)) (m : Int → α)
    (hl : l.Pairwise harmless) : ∀ p ∈ l, run_copies l m p.1 = run_copies l m p.2 := by
  induction l generalizing m with
  | nil => intro p hp; simp at hp
  | cons q l ih =>
    intro p hp
    rw [List.pairwise_cons] at hl
    rw [run_copies_cons]
    rcases List.mem_cons.1 hp with h | h
    · subst h
      apply run_copies_keeps _ _ _ hl.1
      by_cases e : p.2 = p.1
      · simp [copy_sample, e]
      · simp [copy_sample, e]
    · exact ih _ hl.2 p h

/-! ### Cells and offsets -/

/-- Two cells whose columns lie in one window of at most `s` columns have
different offsets unless they are the same cell. -/
theorem cell_offset_inj (s lo : Int) (x y : Int × Int)
    (hx1 : lo ≤ x.2) (hx2 : x.2 < lo + s) (hy1 : lo ≤ y.2) (hy2 : y.2 < lo + s)
    (h : cell_offset s x = cell_offset s y) : x = y := by
  unfold cell_offset at h
  have hr : x.1 = y.1 := by
    by_contra hne
    rcases lt_or_gt_of_ne hne with hlt | hgt
    · have h1 : x.1 + 1 ≤ y.1 := hlt
      have hs : 0 ≤ s := by omega
      have := mul_le_mul_of_nonneg_right h1 hs
      nlinarith
    · have h1 : y.1 + 1 ≤ x.1 := hgt
      have hs : 0 ≤ s := by omega
      have := mul_le_mul_of_nonneg_right h1 hs
      nlinarith
  have hc : x.2 = y.2 := by
    rw [hr] at h
    omega
  exact Prod.ext hr hc

theorem extend_upwards_eq {α : Type} (b : my_image_comp α) :
    extend_upwards b = (upward_cells b.border b.width).map (cell_copy b.stride) := by
  simp only [extend_upwards, upward_cells, List.map_flatMap, List.map_map]
  rfl

theorem extend_downwards_eq {α : Type} (b : my_image_comp α) :
    extend_downwards b =
      (downward_cells b.border b.width b.height).map (cell_copy b.stride) := by
  simp only [extend_downwards, downward_cells, List.map_flatMap, List.map_map]
  refine congrArg (List.flatMap (List.range b.border.toNat)) (funext fun i => ?_)
  refine congrArg (fun f => List.map f (List.range b.width.toNat)) (funext fun j => ?_)
  simp only [Function.comp, cell_copy, cell_offset, Prod.mk.injEq]
  constructor <;> ring

theorem extend_sideways_eq {α : Type} (b : my_image_comp α) :
    extend_sideways b =
      (sideways_cells b.border b.width b.height).map (cell_copy b.stride) := by
  simp only [extend_sideways, sideways_cells, List.map_flatMap, List.map_cons, List.map_nil]
  congr 1
  funext i
  congr 1
  funext j
  simp only [cell_copy, cell_offset, List.cons.injEq, Prod.mk.injEq, and_true]
  refine ⟨⟨?_, ?_⟩, ⟨?_, ?_⟩⟩ <;> ring

theorem extension_copies_eq {α : Type} (b : my_image_comp α) :
    extension_copies b =
      (extension_cells b.border b.width b.height).map (cell_copy b.stride) := by
  simp only [extension_copies, extension_cells, List.map_append, extend_upwards_eq,
    extend_downwards_eq, extend_sideways_eq]

theorem mem_upward_cells (B W : Int) (p : (Int × Int) × (Int × Int)) :
    p ∈ upward_cells B W ↔
      ∃ k c : Int, 1 ≤ k ∧ k ≤ B ∧ 0 ≤ c ∧ c < W ∧ p = ((-k, c), (k, c)) := by
  simp only [upward_cells, List.mem_flatMap, List.mem_map, List.mem_range]
  constructor
  · rintro ⟨i, hi, j, hj, rfl⟩
    exact ⟨(i : Int) + 1, (j : Int), by omega, by omega, by omega, by omega, rfl⟩
  · rintro ⟨k, c, h1, h2, h3, h4, rfl⟩
    refine ⟨(k - 1).toNat, by omega, c.toNat, by omega, ?_⟩
    have e1 : (((k - 1).toNat : Nat) : Int) + 1 = k := by omega
    have e2 : ((c.toNat : Nat) : Int) = c := by omega
    rw [e1, e2]

theorem mem_downward_cells (B W Ht : Int) (p : (Int × Int) × (Int × Int)) :
    p ∈ downward_cells B W Ht ↔
      ∃ k c : Int, 1 ≤ k ∧ k ≤ B ∧ 0 ≤ c ∧ c < W ∧
        p = ((Ht - 1 + k, c), (Ht - 1 - k, c)) := by
  simp only [downward_cells, List.mem_flatMap, List.mem_map, List.mem_range]
  constructor
  · rintro ⟨i, hi, j, hj, rfl⟩
    exact ⟨(i : Int) + 1, (j : Int), by omega, by omega, by omega, by omega, rfl⟩
  · rintro ⟨k, c, h1, h2, h3, h4, rfl⟩
    refine ⟨(k - 1).toNat, by omega, c.toNat, by omega, ?_⟩
    have e1 : (((k - 1).toNat : Nat) : Int) + 1 = k := by omega
    have e2 : ((c.toNat : Nat) : Int) = c := by omega
    rw [e1, e2]

theorem mem_sideways_cells (B W Ht : Int) (p : (Int × Int) × (Int × Int)) :
    p ∈ sideways_cells B W Ht ↔
      ∃ r k : Int, -B ≤ r ∧ r < Ht + B ∧ 1 ≤ k ∧ k ≤ B ∧
        (p = ((r, -k), (r, k)) ∨ p = ((r, W - 1 + k), (r, W - 1 - k))) := by
  simp only [sideways_cells, List.mem_flatMap, List.mem_range, List.mem_cons,
    List.mem_singleton, List.not_mem_nil, or_false]
  constructor
  · rintro ⟨i, hi, j, hj, h⟩
    exact ⟨-B + (i : Int), (j : Int) + 1, by omega, by omega, by omega, by omega, h⟩
  · rintro ⟨r, k, h1, h2, h3, h4, h⟩
    refine ⟨(r + B).toNat, by omega, (k - 1).toNat, by omega, ?_⟩
    have e1 : -B + (((r + B).toNat : Nat) : Int) = r := by omega
    have e2 : (((k - 1).toNat : Nat) : Int) + 1 = k := by omega
    rw [e1, e2]
    exact h

/-- Frame rule by cells: a cell of the extended window that is not among the
destination cells keeps its sample. -/
theorem run_cells_frame {α : Type} (s B W : Int) (L : List ((Int × Int) × (Int × Int)))
    (m : Int → α) (x : Int × Int) (hs : W + 2 * B ≤ s)
    (hx : -B ≤ x.2 ∧ x.2 < W + B)
    (hL : ∀ q ∈ L, -B ≤ q.1.2 ∧ q.1.2 < W + B)
    (hne : ∀ q ∈ L, q.1 ≠ x) :
    run_copies (L.map (cell_copy s)) m (cell_offset s x) = m (cell_offset s x) := by
  apply run_copies_frame
  intro p hp
  obtain ⟨q, hq, rfl⟩ := List.mem_map.1 hp
  intro e
  have hw := hL q hq
  exact hne q hq (cell_offset_inj s (-B) q.1 x (by omega) (by omega) (by omega) (by omega) e)

/-- Copy rule by cells: a destination cell whose source cell is never written,
and which is only assigned from that source, ends up with the source's
initial sample. -/
theorem run_cells_copy {α : Type} (s B W : Int) (L : List ((Int × Int) × (Int × Int)))
    (m : Int → α) (d x : Int × Int) (hs : W + 2 * B ≤ s)
    (hd : -B ≤ d.2 ∧ d.2 < W + B) (hx : -B ≤ x.2 ∧ x.2 < W + B)
    (hL : ∀ q ∈ L, -B ≤ q.1.2 ∧ q.1.2 < W + B)
    (hmem : (d, x) ∈ L) (hsrc : ∀ q ∈ L, q.1 ≠ x) (hdst : ∀ q ∈ L, q.1 = d → q.2 = x) :
    run_copies (L.map (cell_copy s)) m (cell_offset s d) = m (cell_offset s x) := by
  apply run_copies_copy
  · exact List.mem_map.2 ⟨(d, x), hmem, rfl⟩
  · intro p hp
    obtain ⟨q, hq, rfl⟩ := List.mem_map.1 hp
    intro e
    have hw := hL q hq
    exact hsrc q hq
      (cell_offset_inj s (-B) q.1 x (by omega) (by omega) (by omega) (by omega) e)
  · intro p hp e
    obtain ⟨q, hq, rfl⟩ := List.mem_map.1 hp
    have hw := hL q hq
    have h1 : q.1 = d :=
      cell_offset_inj s (-B) q.1 d (by omega) (by omega) (by omega) (by omega) e
    show cell_offset s q.2 = cell_offset s x
    rw [hdst q hq h1]

theorem upward_cells_window (B W : Int) :
    ∀ q ∈ upward_cells B W, -B ≤ q.1.2 ∧ q.1.2 < W + B := by
  intro q hq
  obtain ⟨k, c, h1, h2, h3, h4, rfl⟩ := (mem_upward_cells B W q).1 hq
  constructor <;> simp only <;> omega

theorem downward_cells_window (B W Ht : Int) :
    ∀ q ∈ downward_cells B W Ht, -B ≤ q.1.2 ∧ q.1.2 < W + B := by
  intro q hq
  obtain ⟨k, c, h1, h2, h3, h4, rfl⟩ := (mem_downward_cells B W Ht q).1 hq
  constructor <;> simp only <;> omega

theorem sideways_cells_window (B W Ht : Int) (hW : 0 ≤ W) :
    ∀ q ∈ sideways_cells B W Ht, -B ≤ q.1.2 ∧ q.1.2 < W + B := by
  intro q hq
  obtain ⟨r, k, h1, h2, h3, h4, h | h⟩ := (mem_sideways_cells B W Ht q).1 hq <;>
    subst h <;> constructor <;> simp only <;> omega

/-- Without a border no assignment is made. -/
theorem extension_cells_nil (B W Ht : Int) (hB : B < 1) : extension_cells B W Ht = [] := by
  apply List.eq_nil_iff_forall_not_mem.2
  intro q hq
  simp only [extension_cells, List.mem_append] at hq
  rcases hq with h | h | h
  · obtain ⟨k, c, h1, h2, _⟩ := (mem_upward_cells _ _ q).1 h
    omega
  · obtain ⟨k, c, h1, h2, _⟩ := (mem_downward_cells _ _ _ q).1 h
    omega
  · obtain ⟨r, k, _, _, h1, h2, _⟩ := (mem_sideways_cells _ _ _ q).1 h
    omega

/-- The store after `perform_boundary_extension`, from the list of cells. -/
theorem perform_boundary_extension_cells {α : Type} (b : my_image_comp α) :
    b.perform_boundary_extension.buf =
      run_copies ((extension_cells b.border b.width b.height).map (cell_copy b.stride))
        b.buf := by
  simp only [my_image_comp.perform_boundary_extension, extension_copies_eq]

/-- The store after `perform_boundary_extension`, stage by stage. -/
theorem perform_boundary_extension_buf {α : Type} (b : my_image_comp α) :
    b.perform_boundary_extension.buf =
      run_copies ((sideways_cells b.border b.width b.height).map (cell_copy b.stride))
        (run_copies ((downward_cells b.border b.width b.height).map (cell_copy b.stride))
          (run_copies ((upward_cells b.border b.width).map (cell_copy b.stride)) b.buf)) := by
  simp only [my_image_comp.perform_boundary_extension, extension_copies, run_copies_append,
    extend_upwards_eq, extend_downwards_eq, extend_sideways_eq]

theorem sample_eq_cell {α : Type} (b : my_image_comp α) (r c : Int) :
    b.sample r c = b.buf (cell_offset b.stride (r, c)) := rfl

theorem sample_extension_eq_cell {α : Type} (b : my_image_comp α) (r c : Int) :
    b.perform_boundary_extension.sample r c =
      b.perform_boundary_extension.buf (cell_offset b.stride (r, c)) := rfl

/-- Columns of the unextended range are never written by the third stage, and
rows of the interior are written by none: interior samples are kept. -/
theorem extension_keeps_interior {α : Type} (b : my_image_comp α) (hwf : b.well_formed)
    (r c : Int) (hr : 0 ≤ r ∧ r < b.height) (hc : 0 ≤ c ∧ c < b.width) :
    b.perform_boundary_extension.sample r c = b.sample r c := by
  unfold my_image_comp.well_formed at hwf
  rw [sample_extension_eq_cell, sample_eq_cell]
  by_cases hB : 1 ≤ b.border
  · rw [perform_boundary_extension_buf,
      run_cells_frame b.stride b.border b.width _ _ (r, c) hwf (by simp only; omega)
        (sideways_cells_window _ _ _ (by omega)),
      run_cells_frame b.stride b.border b.width _ _ (r, c) hwf (by simp only; omega)
        (downward_cells_window _ _ _),
      run_cells_frame b.stride b.border b.width _ _ (r, c) hwf (by simp only; omega)
        (upward_cells_window _ _)]
    · intro q hq e
      obtain ⟨k, c', h1, h2, h3, h4, rfl⟩ := (mem_upward_cells _ _ q).1 hq
      simp only [Prod.mk.injEq] at e
      omega
    · intro q hq e
      obtain ⟨k, c', h1, h2, h3, h4, rfl⟩ := (mem_downward_cells _ _ _ q).1 hq
      simp only [Prod.mk.injEq] at e
      omega
    · intro q hq e
      obtain ⟨r', k, h1, h2, h3, h4, h | h⟩ := (mem_sideways_cells _ _ _ q).1 hq <;>
        subst h <;> simp only [Prod.mk.injEq] at e <;> omega
  · rw [perform_boundary_extension_cells, extension_cells_nil _ _ _ (by omega)]
    rfl

/-- Row `-k` receives the initial row `k`, for every `k` up to the border that
still names an interior row. -/
theorem extension_mirror_top {α : Type} (b : my_image_comp α) (hwf : b.well_formed)
    (k c : Int) (hk : 1 ≤ k ∧ k ≤ b.border) (hkh : k ≤ b.height - 1)
    (hc : 0 ≤ c ∧ c < b.width) :
    b.perform_boundary_extension.sample (-k) c = b.sample k c := by
  unfold my_image_comp.well_formed at hwf
  rw [sample_extension_eq_cell, sample_eq_cell, perform_boundary_extension_buf,
    run_cells_frame b.stride b.border b.width _ _ (-k, c) hwf (by simp only; omega)
      (sideways_cells_window _ _ _ (by omega)),
    run_cells_frame b.stride b.border b.width _ _ (-k, c) hwf (by simp only; omega)
      (downward_cells_window _ _ _),
    run_cells_copy b.stride b.border b.width _ _ (-k, c) (k, c) hwf (by simp only; omega)
      (by simp only; omega) (upward_cells_window _ _)]
  · exact (mem_upward_cells _ _ _).2 ⟨k, c, hk.1, hk.2, hc.1, hc.2, rfl⟩
  · intro q hq e
    obtain ⟨k', c', h1, h2, h3, h4, rfl⟩ := (mem_upward_cells _ _ q).1 hq
    simp only [Prod.mk.injEq] at e
    omega
  · intro q hq e
    obtain ⟨k', c', h1, h2, h3, h4, rfl⟩ := (mem_upward_cells _ _ q).1 hq
    simp only [Prod.mk.injEq] at e ⊢
    omega
  · intro q hq e
    obtain ⟨k', c', h1, h2, h3, h4, rfl⟩ := (mem_downward_cells _ _ _ q).1 hq
    simp only [Prod.mk.injEq] at e
    omega
  · intro q hq e
    obtain ⟨r', k', h1, h2, h3, h4, h | h⟩ := (mem_sideways_cells _ _ _ q).1 hq <;>
      subst h <;> simp only [Prod.mk.injEq] at e <;> omega

/-- Row `height-1+k` receives the initial row `height-1-k`, for every `k` up to
the border that still names an interior row. -/
theorem extension_mirror_bottom {α : Type} (b : my_image_comp α) (hwf : b.well_formed)
    (k c : Int) (hk : 1 ≤ k ∧ k ≤ b.border) (hkh : k ≤ b.height - 1)
    (hc : 0 ≤ c ∧ c < b.width) :
    b.perform_boundary_extension.sample (b.height - 1 + k) c =
      b.sample (b.height - 1 - k) c := by
  unfold my_image_comp.well_formed at hwf
  rw [sample_extension_eq_cell, sample_eq_cell, perform_boundary_extension_buf,
    run_cells_frame b.stride b.border b.width _ _ (b.height - 1 + k, c) hwf
      (by simp only; omega) (sideways_cells_window _ _ _ (by omega)),
    run_cells_copy b.stride b.border b.width _ _ (b.height - 1 + k, c)
      (b.height - 1 - k, c) hwf (by simp only; omega)
      (by simp only; omega) (downward_cells_window _ _ _),
    run_cells_frame b.stride b.border b.width _ _ (b.height - 1 - k, c) hwf
      (by simp only; omega) (upward_cells_window _ _)]
  · intro q hq e
    obtain ⟨k', c', h1, h2, h3, h4, rfl⟩ := (mem_upward_cells _ _ q).1 hq
    simp only [Prod.mk.injEq] at e
    omega
  · exact (mem_downward_cells _ _ _ _).2 ⟨k, c, hk.1, hk.2, hc.1, hc.2, rfl⟩
  · intro q hq e
    obtain ⟨k', c', h1, h2, h3, h4, rfl⟩ := (mem_downward_cells _ _ _ q).1 hq
    simp only [Prod.mk.injEq] at e
    omega
  · intro q hq e
    obtain ⟨k', c', h1, h2, h3, h4, rfl⟩ := (mem_downward_cells _ _ _ q).1 hq
    simp only [Prod.mk.injEq] at e ⊢
    omega
  · intro q hq e
    obtain ⟨r', k', h1, h2, h3, h4, h | h⟩ := (mem_sideways_cells _ _ _ q).1 hq <;>
      subst h <;> simp only [Prod.mk.injEq] at e <;> omega

/-- After the call, column `-k` of every extended row equals column `k` of the
same row, for every `k` up to the border that still names an interior column. -/
theorem extension_mirror_left {α : Type} (b : my_image_comp α) (hwf : b.well_formed)
    (r k : Int) (hr : -b.border ≤ r ∧ r < b.height + b.border)
    (hk : 1 ≤ k ∧ k ≤ b.border) (hkw : k ≤ b.width - 1) :
    b.perform_boundary_extension.sample r (-k) =
      b.perform_boundary_extension.sample r k := by
  unfold my_image_comp.well_formed at hwf
  rw [sample_extension_eq_cell, sample_extension_eq_cell, perform_boundary_extension_buf,
    run_cells_copy b.stride b.border b.width _ _ (r, -k) (r, k) hwf (by simp only; omega)
      (by simp only; omega) (sideways_cells_window _ _ _ (by omega)),
    run_cells_frame b.stride b.border b.width _ _ (r, k) hwf (by simp only; omega)
      (sideways_cells_window _ _ _ (by omega))]
  · intro q hq e
    obtain ⟨r', k', h1, h2, h3, h4, h | h⟩ := (mem_sideways_cells _ _ _ q).1 hq <;>
      subst h <;> simp only [Prod.mk.injEq] at e <;> omega
  · exact (mem_sideways_cells _ _ _ _).2 ⟨r, k, hr.1, hr.2, hk.1, hk.2, Or.inl rfl⟩
  · intro q hq e
    obtain ⟨r', k', h1, h2, h3, h4, h | h⟩ := (mem_sideways_cells _ _ _ q).1 hq <;>
      subst h <;> simp only [Prod.mk.injEq] at e <;> omega
  · intro q hq e
    obtain ⟨r', k', h1, h2, h3, h4, h | h⟩ := (mem_sideways_cells _ _ _ q).1 hq <;>
      subst h <;> simp only [Prod.mk.injEq] at e ⊢ <;> omega

/-- After the call, column `width-1+k` of every extended row equals column
`width-1-k` of the same row, for every `k` up to the border that still names an
interior column. -/
theorem extension_mirror_right {α : Type} (b : my_image_comp α) (hwf : b.well_formed)
    (r k : Int) (hr : -b.border ≤ r ∧ r < b.height + b.border)
    (hk : 1 ≤ k ∧ k ≤ b.border) (hkw : k ≤ b.width - 1) :
    b.perform_boundary_extension.sample r (b.width - 1 + k) =
      b.perform_boundary_extension.sample r (b.width - 1 - k) := by
  unfold my_image_comp.well_formed at hwf
  rw [sample_extension_eq_cell, sample_extension_eq_cell, perform_boundary_extension_buf,
    run_cells_copy b.stride b.border b.width _ _ (r, b.width - 1 + k) (r, b.width - 1 - k)
      hwf (by simp only; omega)
      (by simp only; omega) (sideways_cells_window _ _ _ (by omega)),
    run_cells_frame b.stride b.border b.width _ _ (r, b.width - 1 - k) hwf
      (by simp only; omega) (sideways_cells_window _ _ _ (by omega))]
  · intro q hq e
    obtain ⟨r', k', h1, h2, h3, h4, h | h⟩ := (mem_sideways_cells _ _ _ q).1 hq <;>
      subst h <;> simp only [Prod.mk.injEq] at e <;> omega
  · exact (mem_sideways_cells _ _ _ _).2 ⟨r, k, hr.1, hr.2, hk.1, hk.2, Or.inr rfl⟩
  · intro q hq e
    obtain ⟨r', k', h1, h2, h3, h4, h | h⟩ := (mem_sideways_cells _ _ _ q).1 hq <;>
      subst h <;> simp only [Prod.mk.injEq] at e <;> omega
  · intro q hq e
    obtain ⟨r', k', h1, h2, h3, h4, h | h⟩ := (mem_sideways_cells _ _ _ q).1 hq <;>
      subst h <;> simp only [Prod.mk.injEq] at e ⊢ <;> omega

/-! ### Every assignment's equation holds in the final store -/

theorem upward_cells_settled (B W : Int) :
    (upward_cells B W).Pairwise harmless := by
  unfold upward_cells
  rw [List.pairwise_flatMap]
  constructor
  · intro i _
    rw [List.pairwise_map]
    refine (List.pairwise_lt_range _).imp ?_
    intro j j' hj
    simp only [harmless, Prod.mk.injEq, ne_eq, not_and]
    omega
  · refine (List.pairwise_lt_range _).imp ?_
    intro i i' hi x hx y hy
    obtain ⟨j, _, rfl⟩ := List.mem_map.1 hx
    obtain ⟨j', _, rfl⟩ := List.mem_map.1 hy
    simp only [harmless, Prod.mk.injEq, ne_eq, not_and]
    omega

theorem downward_cells_settled (B W Ht : Int) :
    (downward_cells B W Ht).Pairwise harmless := by
  unfold downward_cells
  rw [List.pairwise_flatMap]
  constructor
  · intro i _
    rw [List.pairwise_map]
    refine (List.pairwise_lt_range _).imp ?_
    intro j j' hj
    simp only [harmless, Prod.mk.injEq, ne_eq, not_and]
    omega
  · refine (List.pairwise_lt_range _).imp ?_
    intro i i' hi x hx y hy
    obtain ⟨j, _, rfl⟩ := List.mem_map.1 hx
    obtain ⟨j', _, rfl⟩ := List.mem_map.1 hy
    simp only [harmless, Prod.mk.injEq, ne_eq, not_and]
    omega

theorem sideways_cells_settled (B W Ht : Int) (hW : 1 ≤ W) :
    (sideways_cells B W Ht).Pairwise harmless := by
  unfold sideways_cells
  rw [List.pairwise_flatMap]
  constructor
  · intro i _
    rw [List.pairwise_flatMap]
    constructor
    · intro j _
      simp only [List.pairwise_cons, List.mem_singleton, forall_eq, List.not_mem_nil,
        IsEmpty.forall_iff, implies_true, List.Pairwise.nil, and_true, harmless,
        Prod.mk.injEq, ne_eq, not_and, true_and, true_implies]
      omega
    · refine (List.pairwise_lt_range _).imp ?_
      intro j j' hj x hx y hy
      simp only [List.mem_cons, List.mem_singleton, List.not_mem_nil, or_false] at hx hy
      rcases hx with rfl | rfl <;> rcases hy with rfl | rfl <;>
        simp only [harmless, Prod.mk.injEq, ne_eq, not_and] <;> omega
  · refine (List.pairwise_lt_range _).imp ?_
    intro i i' hi x hx y hy
    obtain ⟨j, _, hx⟩ := List.mem_flatMap.1 hx
    obtain ⟨j', _, hy⟩ := List.mem_flatMap.1 hy
    simp only [List.mem_cons, List.mem_singleton, List.not_mem_nil, or_false] at hx hy
    rcases hx with rfl | rfl <;> rcases hy with rfl | rfl <;>
      simp only [harmless, Prod.mk.injEq, ne_eq, not_and] <;> omega

/-- With a border that stays inside the image height and at least one column,
no assignment of `perform_boundary_extension` disturbs an earlier one. -/
theorem extension_cells_settled (B W Ht : Int) (hB : B ≤ Ht - 1) (hW : 1 ≤ W) :
    (extension_cells B W Ht).Pairwise harmless := by
  unfold extension_cells
  rw [List.pairwise_append, List.pairwise_append]
  refine ⟨upward_cells_settled B W, ⟨downward_cells_settled B W Ht,
    sideways_cells_settled B W Ht hW, ?_⟩, ?_⟩
  · intro x hx y hy
    obtain ⟨k, c, h1, h2, h3, h4, rfl⟩ := (mem_downward_cells _ _ _ x).1 hx
    obtain ⟨r', k', g1, g2, g3, g4, h | h⟩ := (mem_sideways_cells _ _ _ y).1 hy <;>
      subst h <;> simp only [harmless, Prod.mk.injEq, ne_eq, not_and] <;> omega
  · intro x hx y hy
    obtain ⟨k, c, h1, h2, h3, h4, rfl⟩ := (mem_upward_cells _ _ x).1 hx
    rcases List.mem_append.1 hy with hy | hy
    · obtain ⟨k', c', g1, g2, g3, g4, rfl⟩ := (mem_downward_cells _ _ _ y).1 hy
      simp only [harmless, Prod.mk.injEq, ne_eq, not_and]
      omega
    · obtain ⟨r', k', g1, g2, g3, g4, h | h⟩ := (mem_sideways_cells _ _ _ y).1 hy <;>
        subst h <;> simp only [harmless, Prod.mk.injEq, ne_eq, not_and] <;> omega

/-- Every cell read or written lies in one window of `W + 2·B` columns. -/
theorem extension_cells_window (B W Ht : Int) (hW : 1 ≤ W) :
    ∀ q ∈ extension_cells B W Ht,
      (-B ≤ q.1.2 ∧ q.1.2 < W + B) ∧ (-B ≤ q.2.2 ∧ q.2.2 < W + B) := by
  intro q hq
  simp only [extension_cells, List.mem_append] at hq
  rcases hq with h | h | h
  · obtain ⟨k, c, h1, h2, h3, h4, rfl⟩ := (mem_upward_cells _ _ q).1 h
    simp only
    omega
  · obtain ⟨k, c, h1, h2, h3, h4, rfl⟩ := (mem_downward_cells _ _ _ q).1 h
    simp only
    omega
  · obtain ⟨r, k, h1, h2, h3, h4, h | h⟩ := (mem_sideways_cells _ _ _ q).1 h <;>
      subst h <;> simp only <;> omega

/-- Harmlessness passes from cells to offsets inside the window. -/
theorem extension_copies_settled {α : Type} (b : my_image_comp α) (hwf : b.well_formed)
    (hB : b.border ≤ b.height - 1) (hW : 1 ≤ b.width) :
    (extension_copies b).Pairwise harmless := by
  unfold my_image_comp.well_formed at hwf
  rw [extension_copies_eq, List.pairwise_map]
  refine (extension_cells_settled b.border b.width b.height hB hW).imp_of_mem ?_
  intro x y hx hy hxy
  obtain ⟨⟨x1, x2⟩, ⟨x3, x4⟩⟩ := extension_cells_window _ _ _ hW x hx
  obtain ⟨⟨y1, y2⟩, ⟨y3, y4⟩⟩ := extension_cells_window _ _ _ hW y hy
  obtain ⟨n1, n2⟩ := hxy
  constructor
  · intro e
    exact n1 (cell_offset_inj b.stride (-b.border) y.1 x.1 (by omega) (by omega)
      (by omega) (by omega) e)
  · intro e
    have e1 : y.1 = x.2 := cell_offset_inj b.stride (-b.border) y.1 x.2 (by omega)
      (by omega) (by omega) (by omega) e
    show cell_offset b.stride y.2 = cell_offset b.stride x.1
    rw [n2 e1]

/-- The buffer after the call is a fixed point of the call. -/
theorem extension_idempotent {α : Type} (b : my_image_comp α) (hwf : b.well_formed)
    (hB : b.border ≤ b.height - 1) (hW : 1 ≤ b.width) :
    b.perform_boundary_extension.perform_boundary_extension =
      b.perform_boundary_extension := by
  have hs := run_copies_settled (extension_copies b) b.buf
    (extension_copies_settled b hwf hB hW)
  have hfix := run_copies_fixed (extension_copies b) (run_copies (extension_copies b) b.buf) hs
  show ({ b.perform_boundary_extension with
      buf := run_copies (extension_copies b.perform_boundary_extension)
        b.perform_boundary_extension.buf } : my_image_comp α) = _
  have hc : extension_copies b.perform_boundary_extension = extension_copies b := rfl
  rw [hc]
  show ({ b.perform_boundary_extension with
      buf := run_copies (extension_copies b) (run_copies (extension_copies b) b.buf) } :
        my_image_comp α) = _
  rw [hfix]
  rfl

/-! ## Boundary extension: the claims -/

/-- C1: for a buffer with `1 ≤ border ≤ height - 1`, after
`perform_boundary_extension` row `-k` holds the interior row `k` and row
`height-1+k` holds the interior row `height-1-k` (values from before the call),
for every `k` in `[1, border]` and every column `c` in `[0, width)`. -/
theorem boundary_extension_mirrors_rows {α : Type} (b : my_image_comp α)
    (hwf : b.well_formed) (hb : 1 ≤ b.border ∧ b.border ≤ b.height - 1)
    (k c : Int) (hk : 1 ≤ k ∧ k ≤ b.border) (hc : 0 ≤ c ∧ c < b.width) :
    b.perform_boundary_extension.sample (-k) c = b.sample k c ∧
      b.perform_boundary_extension.sample (b.height - 1 + k) c =
        b.sample (b.height - 1 - k) c :=
  ⟨extension_mirror_top b hwf k c hk (by omega) hc,
    extension_mirror_bottom b hwf k c hk (by omega) hc⟩

theorem boundary_extension_mirrors_rows_witness :
    buffer_3x3.well_formed ∧
      (1 ≤ buffer_3x3.border ∧ buffer_3x3.border ≤ buffer_3x3.height - 1) ∧
      (buffer_3x3.perform_boundary_extension.sample (-1) 2 = buffer_3x3.sample 1 2 ∧
        buffer_3x3.perform_boundary_extension.sample (buffer_3x3.height - 1 + 1) 2 =
          buffer_3x3.sample (buffer_3x3.height - 1 - 1) 2) :=
  ⟨by decide, by decide,
    boundary_extension_mirrors_rows buffer_3x3 (by decide) (by decide) 1 2 (by decide)
      (by decide)⟩

/-- C2: for a buffer with `1 ≤ border ≤ min(width, height) - 1`, after
`perform_boundary_extension` every extended row `r` in `[-border, height+border)`
is mirrored to the left and to the right (`sample(r,-k) = sample(r,k)` and
`sample(r,width-1+k) = sample(r,width-1-k)` for `k` in `[1, border]`), and each
of the four corner samples equals the doubly reflected interior sample. -/
theorem boundary_extension_mirrors_columns {α : Type} (b : my_image_comp α)
    (hwf : b.well_formed) (hb : 1 ≤ b.border ∧ b.border ≤ min b.width b.height - 1)
    (r j k : Int) (hr : -b.border ≤ r ∧ r < b.height + b.border)
    (hj : 1 ≤ j ∧ j ≤ b.border) (hk : 1 ≤ k ∧ k ≤ b.border) :
    (b.perform_boundary_extension.sample r (-k) =
        b.perform_boundary_extension.sample r k ∧
      b.perform_boundary_extension.sample r (b.width - 1 + k) =
        b.perform_boundary_extension.sample r (b.width - 1 - k)) ∧
    (b.perform_boundary_extension.sample (-j) (-k) = b.sample j k ∧
      b.perform_boundary_extension.sample (-j) (b.width - 1 + k) =
        b.sample j (b.width - 1 - k) ∧
      b.perform_boundary_extension.sample (b.height - 1 + j) (-k) =
        b.sample (b.height - 1 - j) k ∧
      b.perform_boundary_extension.sample (b.height - 1 + j) (b.width - 1 + k) =
        b.sample (b.height - 1 - j) (b.width - 1 - k)) := by
  have hbw : k ≤ b.width - 1 := by omega
  have hbh : b.border ≤ b.height - 1 := by omega
  refine ⟨⟨extension_mirror_left b hwf r k hr hk hbw,
    extension_mirror_right b hwf r k hr hk hbw⟩, ?_, ?_, ?_, ?_⟩
  · rw [extension_mirror_left b hwf (-j) k (by omega) hk hbw]
    exact extension_mirror_top b hwf j k hj (by omega) (by omega)
  · rw [extension_mirror_right b hwf (-j) k (by omega) hk hbw]
    exact extension_mirror_top b hwf j _ hj (by omega) (by omega)
  · rw [extension_mirror_left b hwf _ k (by omega) hk hbw]
    exact extension_mirror_bottom b hwf j k hj (by omega) (by omega)
  · rw [extension_mirror_right b hwf _ k (by omega) hk hbw]
    exact extension_mirror_bottom b hwf j _ hj (by omega) (by omega)

theorem boundary_extension_mirrors_columns_witness :
    buffer_3x3.well_formed ∧
      (1 ≤ buffer_3x3.border ∧
        buffer_3x3.border ≤ min buffer_3x3.width buffer_3x3.height - 1) ∧
      buffer_3x3.perform_boundary_extension.sample (-1) (-1) = buffer_3x3.sample 1 1 :=
  ⟨by decide, by decide,
    (boundary_extension_mirrors_columns buffer_3x3 (by decide) (by decide) 3 1 1
      (by decide) (by decide) (by decide)).2.1⟩

/-- C3, as stated, fails: on a buffer of height 2 with border 2 the second call
changes row `-2` again (offset `-10` holds 10 after one call and 0 after two). -/
theorem boundary_extension_twice_differs :
    buffer_1x2.well_formed ∧
      buffer_1x2.perform_boundary_extension.perform_boundary_extension.buf (-10) ≠
        buffer_1x2.perform_boundary_extension.buf (-10) := by
  decide

/-- C3 (amended): for every buffer whose border does not exceed `height - 1`
and that has at least one column, applying `perform_boundary_extension` twice
yields exactly the buffer obtained by applying it once. -/
theorem boundary_extension_idempotent {α : Type} (b : my_image_comp α)
    (hwf : b.well_formed) (hB : b.border ≤ b.height - 1) (hW : 1 ≤ b.width) :
    b.perform_boundary_extension.perform_boundary_extension =
      b.perform_boundary_extension :=
  extension_idempotent b hwf hB hW

theorem boundary_extension_idempotent_witness :
    buffer_3x3.well_formed ∧ buffer_3x3.border ≤ buffer_3x3.height - 1 ∧
      1 ≤ buffer_3x3.width ∧
      buffer_3x3.perform_boundary_extension.perform_boundary_extension =
        buffer_3x3.perform_boundary_extension :=
  ⟨by decide, by decide, by decide,
    boundary_extension_idempotent buffer_3x3 (by decide) (by decide) (by decide)⟩

/-- C4: `perform_boundary_extension` leaves every interior sample `(r, c)` with
`0 ≤ r < height`, `0 ≤ c < width` as it was, and does not change `width`,
`height`, `border` or `stride`. -/
theorem boundary_extension_frame {α : Type} (b : my_image_comp α) (hwf : b.well_formed)
    (r c : Int) (hr : 0 ≤ r ∧ r < b.height) (hc : 0 ≤ c ∧ c < b.width) :
    b.perform_boundary_extension.sample r c = b.sample r c ∧
      b.perform_boundary_extension.width = b.width ∧
      b.perform_boundary_extension.height = b.height ∧
      b.perform_boundary_extension.border = b.border ∧
      b.perform_boundary_extension.stride = b.stride :=
  ⟨extension_keeps_interior b hwf r c hr hc, rfl, rfl, rfl, rfl⟩

theorem boundary_extension_frame_witness :
    buffer_3x3.well_formed ∧
      buffer_3x3.perform_boundary_extension.sample 0 2 = buffer_3x3.sample 0 2 :=
  ⟨by decide, (boundary_extension_frame buffer_3x3 (by decide) 0 2 (by decide)
    (by decide)).1⟩

/-! ## Convolution engine: lemmas -/

theorem spare_bits_small (fuel a : Nat) (h : a < 2 ^ 24) : spare_bits fuel a = 0 := by
  cases fuel with
  | zero => rfl
  | succ k => unfold spare_bits; rw [if_pos h]

/-- Integers below `2^24` in magnitude are single-precision values. -/
theorem f32_small (n : Int) (h : n.natAbs < 2 ^ 24) : f32 n = n := by
  unfold f32
  simp only [spare_bits_small _ _ h, pow_zero, Nat.div_one, Nat.mod_one, mul_zero, mul_one]
  have h1 : ¬ ((1 : Nat) < 0 ∨ ((0 : Nat) = 1 ∧ n.natAbs % 2 = 1)) := by omega
  rw [if_neg h1]
  exact Int.sign_mul_natAbs n

theorem f32_zero : f32 0 = 0 := by decide

theorem mem_pixels (height width : Int) (x : Int × Int) :
    x ∈ pixels height width ↔ (0 ≤ x.1 ∧ x.1 < height) ∧ (0 ≤ x.2 ∧ x.2 < width) := by
  simp only [pixels, List.mem_flatMap, List.mem_map, List.mem_range]
  constructor
  · rintro ⟨r, hr, c, hc, rfl⟩
    simp only
    omega
  · rintro ⟨⟨h1, h2⟩, h3, h4⟩
    refine ⟨x.1.toNat, by omega, x.2.toNat, by omega, ?_⟩
    apply Prod.ext <;> simp only <;> omega

/-- A loop that stores `val rc` at `off rc` for every pixel leaves `v` at an
offset where every pixel stored there stores `v`. -/
theorem fold_write_sample {α : Type} (off : Int × Int → Int) (val : Int × Int → α)
    (l : List (Int × Int)) (m : Int → α) (o : Int) (v : α)
    (hval : ∀ p ∈ l, off p = o → val p = v) (hex : m o = v ∨ ∃ p ∈ l, off p = o) :
    l.foldl (fun m rc => write_sample m (off rc) (val rc)) m o = v := by
  induction l generalizing m with
  | nil =>
    rcases hex with h | ⟨p, hp, _⟩
    · exact h
    · simp at hp
  | cons q l ih =>
    rw [List.foldl_cons]
    apply ih _ (fun p hp => hval p (List.mem_cons_of_mem _ hp))
    by_cases hq : off q = o
    · left
      simp [write_sample, hq, hval q (List.mem_cons_self _ _) hq]
    · rcases hex with h | ⟨p, hp, hpo⟩
      · left
        have : o ≠ off q := fun e => hq e.symm
        simp [write_sample, this, h]
      · rcases List.mem_cons.1 hp with e | hp'
        · exact absurd (e ▸ hpo) hq
        · exact Or.inr ⟨p, hp', hpo⟩

/-- A loop over the pixels that stores `val (r, c)` at offset `r * s + c` leaves
`val (r, c)` at every pixel, when a row holds no more pixels than the row pitch. -/
theorem fold_pixels_sample {α : Type} (s height width : Int) (val : Int × Int → α)
    (m : Int → α) (r c : Int) (hs : width ≤ s)
    (hr : 0 ≤ r ∧ r < height) (hc : 0 ≤ c ∧ c < width) :
    (pixels height width).foldl (fun m rc => write_sample m (rc.1 * s + rc.2) (val rc)) m
      (r * s + c) = val (r, c) := by
  apply fold_write_sample (fun rc => rc.1 * s + rc.2) val
  · intro p hp e
    have hp' := (mem_pixels _ _ p).1 hp
    have : p = (r, c) :=
      cell_offset_inj s 0 p (r, c) (by omega) (by omega) (by simp only; omega)
        (by simp only; omega) e
    rw [this]
  · exact Or.inr ⟨(r, c), (mem_pixels _ _ _).2 ⟨hr, hc⟩, rfl⟩

/-- What the horizontal stage leaves at pixel `(r, c)`. -/
theorem horizontal_stage_sample (inp : my_image_comp Int) (oh ow : Int)
    (inter : my_image_comp Int) (h : List Int) (H K : Nat) (r c : Int)
    (hs : ow ≤ inter.stride) (hr : 0 ≤ r ∧ r < oh) (hc : 0 ≤ c ∧ c < ow) :
    (horizontal_stage inp oh ow inter h H K).sample r c =
      f32 (accumulate (fun k => inp.sample r (c + k)) h H (2 * H + 1) >>> K) := by
  unfold horizontal_stage my_image_comp.sample
  simp only
  rw [fold_pixels_sample inter.stride oh ow
    (fun rc => f32 (accumulate (fun k => inp.buf (rc.1 * inp.stride + rc.2 + k)) h H
      (2 * H + 1) >>> K)) inter.buf r c hs hr hc]
  simp only [add_assoc]

/-- What the vertical stage leaves at pixel `(r, c)`. -/
theorem vertical_stage_sample (inter : my_image_comp Int) (oh ow : Int)
    (y : my_image_comp Int) (h : List Int) (H K : Nat) (r c : Int)
    (hs : ow ≤ y.stride) (hr : 0 ≤ r ∧ r < oh) (hc : 0 ≤ c ∧ c < ow) :
    (vertical_stage inter oh ow y h H K).sample r c =
      f32 (accumulate (fun k => inter.sample (r + k) c) h H (2 * H + 1) >>> K) := by
  unfold vertical_stage my_image_comp.sample
  simp only
  rw [fold_pixels_sample y.stride oh ow
    (fun rc => f32 (accumulate (fun k => inter.buf (rc.1 * inter.stride + rc.2 +
      k * inter.stride)) h H (2 * H + 1) >>> K)) y.buf r c hs hr hc]
  simp only
  congr 3
  funext k
  congr 1
  ring

theorem accumulate_congr (ip ip' : Int → Int) (h : List Int) (H : Nat) (n : Nat)
    (e : ∀ i, i < n → ip ((i : Int) - H) = ip' ((i : Int) - H)) :
    accumulate ip h H n = accumulate ip' h H n := by
  induction n with
  | zero => rfl
  | succ n ih =>
    show accumulate_step _ _ _ = accumulate_step _ _ _
    rw [ih (fun i hi => e i (Nat.lt_succ_of_lt hi)), e n (Nat.lt_succ_self n)]

/-- After extension, a row at most `H` outside the image holds the samples of
its mirror row, when `H` is within the border and the image height. -/
theorem extension_sample_mirror_row {α : Type} (b : my_image_comp α) (hwf : b.well_formed)
    (H r c : Int) (hb : H ≤ b.border) (hH : H ≤ b.height - 1)
    (hr : -H ≤ r ∧ r ≤ b.height - 1 + H) (hc : 0 ≤ c ∧ c < b.width) :
    b.perform_boundary_extension.sample r c = b.sample (mirror_row b.height r) c := by
  unfold mirror_row
  by_cases h1 : r < 0
  · rw [if_pos h1]
    have := extension_mirror_top b hwf (-r) c (by omega) (by omega) hc
    rwa [neg_neg] at this
  · rw [if_neg h1]
    by_cases h2 : r > b.height - 1
    · rw [if_pos h2]
      have := extension_mirror_bottom b hwf (r - (b.height - 1)) c (by omega) (by omega) hc
      have e1 : b.height - 1 + (r - (b.height - 1)) = r := by ring
      have e2 : b.height - 1 - (r - (b.height - 1)) = 2 * (b.height - 1) - r := by ring
      rwa [e1, e2] at this
    · rw [if_neg h2]
      exact extension_keeps_interior b hwf r c (by omega) hc

/-! ## Convolution stages: the claims -/

/-- C5 fails on the code: `sum += ip[..] * h[..]` multiplies a `float` sample
by an `int` tap, so the accumulation that the comments of the code call integer
processing runs in single precision.  With the `sigma = 1` kernel and `K = 23`,
for the row 0, -126, 0, 62, 0, 93, 0 no running sum leaves the 32-bit range,
the stage stores -12 at the middle pixel, and the floor of the exact sum over
`2^23` is -13. -/
theorem horizontal_stage_not_floor :
    (∀ n, n ≤ 7 →
      in_int32 (accumulate (fun k => row_buffer.sample 0 (3 + k)) h_11_sigma_1 3 n)) ∧
    (horizontal_stage row_buffer 1 7 zero_buffer h_11_sigma_1 3 23).sample 0 3 = -12 ∧
    (∑ i ∈ Finset.range (2 * 3 + 1),
      row_buffer.sample 0 (3 + ((i : Int) - (3 : Nat))) * h_11_sigma_1.getD i 0) / 2 ^ 23
        = -13 := by
  decide

/-- C6 fails on the code: as in the horizontal stage, `sum += ip[..] * h[..]`
multiplies a `float` sample by an `int` tap, so the accumulation runs in single
precision.  With the `sigma = 1` kernel `h_12` and `K = 23`, for the column
0, 0, -13, -1, 13, 0, 0 of the extended intermediate buffer no running sum
leaves the 32-bit range, the stage stores -2 at the middle pixel, and the floor
of the exact sum over `2^23` is -1. -/
theorem vertical_stage_not_floor :
    (∀ n, n ≤ 7 →
      in_int32 (accumulate (fun k => column_buffer.perform_boundary_extension.sample (3 + k) 0)
        h_12_sigma_1 3 n)) ∧
    (vertical_stage column_buffer.perform_boundary_extension 7 4 zero_plane h_12_sigma_1 3
      23).sample 3 0 = -2 ∧
    (∑ i ∈ Finset.range (2 * 3 + 1),
      column_buffer.sample (mirror_row 7 (3 + ((i : Int) - (3 : Nat)))) 0 *
        h_12_sigma_1.getD i 0) / 2 ^ 23 = -1 := by
  set_option maxRecDepth 100000 in decide

/-! ## Combination and clamp -/

theorem clamp_sample_range (x : ℚ) : 0 ≤ clamp_sample x ∧ clamp_sample x ≤ 255 := by
  unfold clamp_sample
  split_ifs with h1 h2
  · norm_num
  · norm_num
  · constructor <;> linarith

theorem to_io_byte_of_range (x : ℚ) (h : 0 ≤ x ∧ x ≤ 255) : to_io_byte x = ⌊x⌋ := by
  unfold to_io_byte
  rw [if_pos h.1]
  have h0 : 0 ≤ ⌊x⌋ := Int.floor_nonneg.2 h.1
  have h1 : ⌊x⌋ ≤ 255 := by
    have : ((⌊x⌋ : Int) : ℚ) ≤ 255 := le_trans (Int.floor_le x) h.2
    exact_mod_cast this
  omega

/-- C7, as stated, fails on the code: the cast in `main` truncates.  For
partial results 1 and 0 and `alpha = 3/4` the emitted byte is 128, while
`clamp(round((p1 + p2)·alpha) + 128, 0, 255)` is 129. -/
theorem emitted_byte_truncates :
    emitted_byte 1 0 (3 / 4) = 128 ∧ spec_output 1 0 (3 / 4) = 129 := by
  constructor
  · have h : combine_sample 1 0 (3 / 4) = 515 / 4 := by norm_num [combine_sample]
    have hc : clamp_sample (515 / 4) = 515 / 4 := by norm_num [clamp_sample]
    have hf : ⌊(515 / 4 : ℚ)⌋ = 128 := by
      rw [Int.floor_eq_iff]; norm_num
    rw [emitted_byte, h, hc, to_io_byte_of_range _ (by norm_num), hf]
  · have hr : round (((1 + 0 : Int) : ℚ) * (3 / 4)) = 1 := by
      rw [round_eq, Int.floor_eq_iff]; norm_num
    rw [spec_output, hr]; decide

/-- C7 (amended): for every pair of integer partial results and every
integer-valued `alpha` (what `main` passes, `alpha = atoi(argv[4])`), the byte
emitted by the combination followed by the clamp and cast of `main` equals
`clamp(round((p1 + p2)·alpha) + 128, 0, 255)`. -/
theorem emitted_byte_integer_alpha (p1 p2 a : Int) :
    emitted_byte p1 p2 (a : ℚ) = spec_output p1 p2 (a : ℚ) := by
  have hc : combine_sample p1 p2 (a : ℚ) = (((p1 + p2) * a + 128 : Int) : ℚ) := by
    unfold combine_sample; push_cast; ring
  have hr : round (((p1 + p2 : Int) : ℚ) * (a : ℚ)) = (p1 + p2) * a := by
    rw [← Int.cast_mul, round_intCast]
  unfold emitted_byte spec_output
  rw [to_io_byte_of_range _ (clamp_sample_range _), hc, hr]
  unfold clamp_sample
  split_ifs with h1 h2
  · have : (255 : Int) < (p1 + p2) * a + 128 := by exact_mod_cast h1
    have e : ⌊(255 : ℚ)⌋ = 255 := by norm_num
    rw [e]; omega
  · have : (p1 + p2) * a + 128 < (0 : Int) := by exact_mod_cast h2
    have e : ⌊(0 : ℚ)⌋ = 0 := by norm_num
    rw [e]; omega
  · have g1 : ¬ (255 : Int) < (p1 + p2) * a + 128 := by
      intro h; apply h1; exact_mod_cast h
    have g2 : ¬ (p1 + p2) * a + 128 < (0 : Int) := by
      intro h; apply h2; exact_mod_cast h
    rw [Int.floor_intCast]; omega

/-- C8: for every pair of partial results and every `alpha`, the byte emitted
after the combination and the overflow/underflow handling of `main` lies in
`[0, 255]`; a combined value above 255 gives exactly 255 and one below 0 gives
exactly 0. -/
theorem emitted_byte_saturates (p1 p2 : Int) (alpha : ℚ) :
    (0 ≤ emitted_byte p1 p2 alpha ∧ emitted_byte p1 p2 alpha ≤ 255) ∧
    (255 < combine_sample p1 p2 alpha → emitted_byte p1 p2 alpha = 255) ∧
    (combine_sample p1 p2 alpha < 0 → emitted_byte p1 p2 alpha = 0) := by
  unfold emitted_byte
  rw [to_io_byte_of_range _ (clamp_sample_range _)]
  have hrange := clamp_sample_range (combine_sample p1 p2 alpha)
  refine ⟨⟨Int.floor_nonneg.2 hrange.1, ?_⟩, ?_, ?_⟩
  · have : ((⌊clamp_sample (combine_sample p1 p2 alpha)⌋ : Int) : ℚ) ≤ 255 :=
      le_trans (Int.floor_le _) hrange.2
    exact_mod_cast this
  · intro h
    unfold clamp_sample
    rw [if_pos h]; norm_num
  · intro h
    unfold clamp_sample
    have : ¬ combine_sample p1 p2 alpha > 255 := by linarith
    rw [if_neg this, if_pos h]; norm_num

theorem emitted_byte_saturates_witness :
    (255 < combine_sample 100 100 2 ∧ emitted_byte 100 100 2 = 255) ∧
    (combine_sample (-100) (-100) 2 < 0 ∧ emitted_byte (-100) (-100) 2 = 0) :=
  ⟨⟨by norm_num [combine_sample],
      (emitted_byte_saturates 100 100 2).2.1 (by norm_num [combine_sample])⟩,
    ⟨by norm_num [combine_sample],
      (emitted_byte_saturates (-100) (-100) 2).2.2 (by norm_num [combine_sample])⟩⟩

/-! ## Shift selection -/

theorem int_clog_two_eq (A : ℚ) (n : Int) (h1 : (2 : ℚ) ^ (n - 1) < A) (h2 : A ≤ (2 : ℚ) ^ n) :
    Int.clog 2 A = n := by
  have h0 : 0 < A := lt_trans (zpow_pos (by norm_num) (n - 1)) h1
  apply le_antisymm
  · exact (Int.le_zpow_iff_clog_le (b := 2) (by norm_num) h0).1 (by simpa using h2)
  · have := (Int.zpow_lt_iff_lt_clog (b := 2) (by norm_num) (x := n - 1) h0).1
      (by simpa using h1)
    omega

theorem shift_K_eq_clog (A : ℚ) (h0 : 0 < A) (h1 : A ≤ 2 ^ 24) :
    shift_K A = 32 - 8 - Int.clog 2 A := by
  have hlo : (2 : ℚ) ^ Int.log 2 A ≤ A := by
    simpa using Int.zpow_log_le_self (b := 2) (by norm_num) h0
  have hhi : A < (2 : ℚ) ^ (Int.log 2 A + 1) := by
    simpa using Int.lt_zpow_succ_log_self (b := 2) (by norm_num) A
  unfold shift_K
  simp only
  by_cases hA : A = (2 : ℚ) ^ Int.log 2 A
  · rw [if_pos hA]
    have : Int.clog 2 A = Int.log 2 A :=
      int_clog_two_eq A _ (lt_of_lt_of_eq
        (zpow_lt_zpow_right₀ (by norm_num) (by omega)) hA.symm) (le_of_eq hA)
    rw [this]
  · rw [if_neg hA]
    have hlt : (2 : ℚ) ^ Int.log 2 A < A := lt_of_le_of_ne hlo (fun e => hA e.symm)
    have hc : Int.clog 2 A = Int.log 2 A + 1 :=
      int_clog_two_eq A _ (by simpa using hlt) hhi.le
    have hf : Int.log 2 A < 24 := by
      have h24 : (2 : ℚ) ^ Int.log 2 A < (2 : ℚ) ^ (24 : ℤ) := by
        refine lt_of_lt_of_le hlt (le_trans h1 (le_of_eq ?_))
        norm_num
      exact (zpow_lt_zpow_iff_right₀ (by norm_num)).1 h24
    rw [if_pos hf, hc]
    ring

theorem logb_two_bounds (A : ℚ) (h0 : 0 < A) :
    ((Int.clog 2 A : Int) : ℝ) - 1 < Real.logb 2 (A : ℝ) ∧
      Real.logb 2 (A : ℝ) ≤ ((Int.clog 2 A : Int) : ℝ) := by
  have h1 : (2 : ℚ) ^ (Int.clog 2 A - 1) < A := by
    simpa using Int.zpow_pred_clog_lt_self (b := 2) (by norm_num) h0
  have h2 : A ≤ (2 : ℚ) ^ (Int.clog 2 A) := by
    simpa using Int.self_le_zpow_clog (b := 2) (by norm_num) A
  have hA : (0 : ℝ) < (A : ℝ) := by exact_mod_cast h0
  have r1 : (2 : ℝ) ^ (Int.clog 2 A - 1) < (A : ℝ) := by
    have := (Rat.cast_lt (K := ℝ)).2 h1
    simpa using this
  have r2 : (A : ℝ) ≤ (2 : ℝ) ^ (Int.clog 2 A) := by
    have := (Rat.cast_le (K := ℝ)).2 h2
    simpa using this
  constructor
  · rw [Real.lt_logb_iff_rpow_lt (by norm_num) hA]
    have : (((Int.clog 2 A : Int) : ℝ) - 1) = ((Int.clog 2 A - 1 : Int) : ℝ) := by push_cast; ring
    rw [this, Real.rpow_intCast]
    exact r1
  · rw [Real.logb_le_iff_le_rpow (by norm_num) hA, Real.rpow_intCast]
    exact r2

theorem shift_K_real (A : ℚ) (h0 : 0 < A) (h1 : A ≤ 2 ^ 24) :
    shift_K A = ⌊(32 - 8 : ℝ) - Real.logb 2 (A : ℝ)⌋ := by
  rw [shift_K_eq_clog A h0 h1]
  symm
  rw [Int.floor_eq_iff]
  obtain ⟨b1, b2⟩ := logb_two_bounds A h0
  push_cast
  constructor <;> linarith

/-- C `round` moves its argument by at most one half. -/
theorem round_half_away_error (x : ℚ) : |((round_half_away x : Int) : ℚ) - x| ≤ 1 / 2 := by
  unfold round_half_away
  rw [abs_le]
  split_ifs with h
  · have h1 := Int.floor_le (x + 1 / 2)
    have h2 := Int.lt_floor_add_one (x + 1 / 2)
    constructor <;> linarith
  · have h1 := Int.le_ceil (x - 1 / 2)
    have h2 := Int.ceil_lt_add_one (x - 1 / 2)
    constructor <;> linarith

theorem round_half_away_intCast (n : Int) : round_half_away (n : ℚ) = n := by
  unfold round_half_away
  split_ifs with h
  · rw [Int.floor_eq_iff]
    constructor <;> norm_num
  · rw [Int.ceil_eq_iff]
    constructor <;> norm_num

/-- Scaling the rounded tap back by `2^-K` reproduces the float tap within half
of `2^-K`. -/
theorem scaled_tap_error (h_f : ℚ) (K : Int) :
    |((scaled_tap h_f K : Int) : ℚ) * (2 : ℚ) ^ (-K) - h_f| ≤ (2 : ℚ) ^ (-K) / 2 := by
  have hpos : (0 : ℚ) < (2 : ℚ) ^ (-K) := zpow_pos (by norm_num) _
  have hinv : (2 : ℚ) ^ K * (2 : ℚ) ^ (-K) = 1 := by
    rw [← zpow_add₀ (by norm_num : (2 : ℚ) ≠ 0)]
    simp
  have e : ((scaled_tap h_f K : Int) : ℚ) * (2 : ℚ) ^ (-K) - h_f =
      (((scaled_tap h_f K : Int) : ℚ) - h_f * (2 : ℚ) ^ K) * (2 : ℚ) ^ (-K) := by
    rw [sub_mul, mul_assoc, hinv, mul_one]
  rw [e, abs_mul, abs_of_pos hpos]
  have := round_half_away_error (h_f * (2 : ℚ) ^ K)
  unfold scaled_tap
  calc |((round_half_away (h_f * (2 : ℚ) ^ K) : Int) : ℚ) - h_f * (2 : ℚ) ^ K| * (2 : ℚ) ^ (-K)
      ≤ 1 / 2 * (2 : ℚ) ^ (-K) := mul_le_mul_of_nonneg_right this hpos.le
    _ = (2 : ℚ) ^ (-K) / 2 := by ring

theorem convert_filter_getD (h_f : List ℚ) (K : Int) (i : Nat) (t : Int)
    (ht : (convert_filter h_f K).getD i none = some t) :
    i < h_f.length ∧ to_int32 (scaled_tap (h_f.getD i 0) K) = some t := by
  unfold convert_filter at ht
  by_cases hi : i < h_f.length
  · refine ⟨hi, ?_⟩
    rw [List.getD_eq_getElem _ _ (by simpa using hi), List.getElem_map] at ht
    rw [List.getD_eq_getElem _ _ hi]
    exact ht
  · rw [List.getD_eq_default _ _ (by simpa using hi)] at ht
    exact absurd ht (by simp)

/-- C10 fails on the code: for `sigma = 0.2` (`H = 1`) the gain is
`A = 621927/2^24`, the shift that line 126 selects is `K = 28`, and the centre
tap of `h_11_f`, scaled by `2^28` and rounded, is -26701768704, outside the
32-bit `int` that line 145 stores it in; no 32-bit `int` comes within `2^-28`
of that float tap. -/
theorem quantized_tap_out_of_range :
    shift_K gain_sigma_02 = 28 ∧
    scaled_tap (h_11_f_sigma_02.getD 1 0) 28 = -26701768704 ∧
    (convert_filter h_11_f_sigma_02 28).getD 1 none = none ∧
    ¬ ∃ t : Int, in_int32 t ∧
      |(t : ℚ) * (2 : ℚ) ^ (-(28 : Int)) - h_11_f_sigma_02.getD 1 0| ≤
        (2 : ℚ) ^ (-(28 : Int)) := by
  have hs : scaled_tap (h_11_f_sigma_02.getD 1 0) 28 = -26701768704 := by
    have e : (h_11_f_sigma_02.getD 1 0) * (2 : ℚ) ^ (28 : Int) =
        ((-26701768704 : Int) : ℚ) := by
      norm_num [h_11_f_sigma_02]
    rw [scaled_tap, e, round_half_away_intCast]
  refine ⟨?_, hs, ?_, ?_⟩
  · rw [shift_K_eq_clog _ (by norm_num [gain_sigma_02]) (by norm_num [gain_sigma_02]),
      int_clog_two_eq gain_sigma_02 (-4) (by norm_num [gain_sigma_02, zpow_neg])
        (by norm_num [gain_sigma_02, zpow_neg])]
    rfl
  · have : convert_filter h_11_f_sigma_02 28 =
        [to_int32 (scaled_tap (h_11_f_sigma_02.getD 0 0) 28),
         to_int32 (scaled_tap (h_11_f_sigma_02.getD 1 0) 28),
         to_int32 (scaled_tap (h_11_f_sigma_02.getD 2 0) 28)] := rfl
    rw [this, hs]
    rfl
  · rintro ⟨t, ⟨hlo, _⟩, hb⟩
    have hlo' : (-2 ^ 31 : ℚ) ≤ (t : ℚ) := by exact_mod_cast hlo
    have hv : h_11_f_sigma_02.getD 1 0 = -13037973 / 131072 := rfl
    rw [hv, abs_le] at hb
    have h28 : (2 : ℚ) ^ (-(28 : Int)) = 1 / 268435456 := by norm_num [zpow_neg]
    rw [h28] at hb
    linarith [hb.1]

/-! ## The pipeline of `main`: lemmas -/

theorem pixels_offsets_distinct (s height width : Int) (hs : width ≤ s) :
    (pixels height width).Pairwise (fun p q => p.1 * s + p.2 ≠ q.1 * s + q.2) := by
  have hne : (pixels height width).Pairwise (fun p q => p ≠ q) := by
    unfold pixels
    rw [List.pairwise_flatMap]
    constructor
    · intro r _
      rw [List.pairwise_map]
      refine (List.pairwise_lt_range _).imp ?_
      intro c c' hc e
      simp only [Prod.mk.injEq] at e
      omega
    · refine (List.pairwise_lt_range _).imp ?_
      intro r r' hr x hx y hy
      obtain ⟨c, _, rfl⟩ := List.mem_map.1 hx
      obtain ⟨c', _, rfl⟩ := List.mem_map.1 hy
      intro e
      simp only [Prod.mk.injEq] at e
      omega
  refine hne.imp_of_mem ?_
  intro p q hp hq hpq e
  have hp' := (mem_pixels _ _ p).1 hp
  have hq' := (mem_pixels _ _ q).1 hq
  exact hpq (cell_offset_inj s 0 p q (by omega) (by omega) (by omega) (by omega) e)

/-- A loop that stores nothing at offset `o` leaves it alone. -/
theorem fold_update_frame {α : Type} (off : Int × Int → Int) (g : Int × Int → α → α)
    (l : List (Int × Int)) (m : Int → α) (o : Int) (h : ∀ p ∈ l, off p ≠ o) :
    l.foldl (fun m rc => write_sample m (off rc) (g rc (m (off rc)))) m o = m o := by
  induction l generalizing m with
  | nil => rfl
  | cons q l ih =>
    rw [List.foldl_cons, ih _ (fun p hp => h p (List.mem_cons_of_mem _ hp))]
    have : o ≠ off q := fun e => h q (List.mem_cons_self _ _) e.symm
    simp [write_sample, this]

/-- A loop that updates every offset once updates each from its initial sample. -/
theorem fold_update_sample {α : Type} (off : Int × Int → Int) (g : Int × Int → α → α)
    (l : List (Int × Int)) (m : Int → α) (p : Int × Int)
    (hl : l.Pairwise (fun a b => off a ≠ off b)) (hp : p ∈ l) :
    l.foldl (fun m rc => write_sample m (off rc) (g rc (m (off rc)))) m (off p) =
      g p (m (off p)) := by
  induction l generalizing m with
  | nil => simp at hp
  | cons q l ih =>
    rw [List.pairwise_cons] at hl
    rw [List.foldl_cons]
    rcases List.mem_cons.1 hp with e | hp'
    · subst e
      rw [fold_update_frame off g l _ _ (fun a ha e => hl.1 a ha e.symm)]
      simp [write_sample]
    · rw [ih _ hl.2 hp']
      have : off p ≠ off q := fun e => hl.1 p hp' e.symm
      simp [write_sample, this]

/-- The level shift subtracts 128 (in single precision) from every interior
sample, once. -/
theorem level_shift_sample (b : my_image_comp Int) (hs : b.width ≤ b.stride) (r c : Int)
    (hr : 0 ≤ r ∧ r < b.height) (hc : 0 ≤ c ∧ c < b.width) :
    (level_shift b).sample r c = f32 (b.sample r c - 128) := by
  unfold level_shift my_image_comp.sample
  exact fold_update_sample (fun rc => rc.1 * b.stride + rc.2) (fun _ x => f32 (x - 128))
    (pixels b.height b.width) b.buf (r, c) (pixels_offsets_distinct _ _ _ hs)
    ((mem_pixels _ _ _).2 ⟨hr, hc⟩)

/-- The level shift leaves the border columns of the interior rows alone. -/
theorem level_shift_border (b : my_image_comp Int) (hwf : b.well_formed) (r c : Int)
    (hc : -b.border ≤ c ∧ c < b.width + b.border) (hout : c < 0 ∨ b.width ≤ c) :
    (level_shift b).sample r c = b.sample r c := by
  unfold my_image_comp.well_formed at hwf
  unfold level_shift my_image_comp.sample
  apply fold_update_frame (fun rc => rc.1 * b.stride + rc.2) (fun _ x => f32 (x - 128))
  intro p hp e
  have e' : cell_offset b.stride p = cell_offset b.stride (r, c) := e
  clear e
  obtain ⟨⟨h1, h2⟩, h3, h4⟩ := (mem_pixels _ _ p).1 hp
  have := cell_offset_inj b.stride (-b.border) p (r, c) (by omega) (by omega)
    (by simp only; omega) (by simp only; omega) e'
  rw [this] at h3 h4
  simp only at h3 h4
  omega

/-- What the combination loop leaves at pixel `(r, c)`. -/
theorem combine_stage_sample (y1 y2 : my_image_comp Int) (out : my_image_comp ℚ) (alpha : ℚ)
    (r c : Int) (hs : out.width ≤ out.stride) (hr : 0 ≤ r ∧ r < out.height)
    (hc : 0 ≤ c ∧ c < out.width) :
    (combine_stage y1 y2 out alpha).sample r c =
      combine_sample (y1.sample r c) (y2.sample r c) alpha := by
  unfold combine_stage my_image_comp.sample
  exact fold_pixels_sample out.stride out.height out.width
    (fun rc => combine_sample (y1.buf (rc.1 * y1.stride + rc.2))
      (y2.buf (rc.1 * y2.stride + rc.2)) alpha) out.buf r c hs hr hc

/-- A whole path, pixel by pixel: horizontal stage into `inter`, symmetric
extension, vertical stage into `y`. -/
theorem path_sample (X inter y : my_image_comp Int) (oh ow : Int) (h_a h_b : List Int)
    (H K : Nat) (r c : Int) (hwf : inter.well_formed) (hw : inter.width = ow)
    (hh : inter.height = oh) (hb : (H : Int) ≤ inter.border) (hH : (H : Int) ≤ oh - 1)
    (hs : ow ≤ y.stride) (hr : 0 ≤ r ∧ r < oh) (hc : 0 ≤ c ∧ c < ow) :
    (vertical_stage (horizontal_stage X oh ow inter h_a H K).perform_boundary_extension
      oh ow y h_b H K).sample r c = path_value X oh h_a h_b H K r c := by
  have hwf' : (horizontal_stage X oh ow inter h_a H K).well_formed := hwf
  have hst : ow ≤ inter.stride := by
    unfold my_image_comp.well_formed at hwf
    omega
  rw [vertical_stage_sample _ oh ow y h_b H K r c hs hr hc]
  unfold path_value
  rw [accumulate_congr _ (fun k => inter_value X h_a H K (mirror_row oh (r + k)) c) h_b H _ ?_]
  intro i hi
  show (horizontal_stage X oh ow inter h_a H K).perform_boundary_extension.sample
    (r + ((i : Int) - H)) c = _
  have hmr : 0 ≤ mirror_row oh (r + ((i : Int) - H)) ∧
      mirror_row oh (r + ((i : Int) - H)) < oh := by
    unfold mirror_row
    split_ifs <;> omega
  rw [extension_sample_mirror_row _ hwf' H _ c hb (by show (H : Int) ≤ inter.height - 1; omega)
    (by show _ ∧ _ ≤ inter.height - 1 + _; omega) (by show _ ∧ _ < inter.width; omega)]
  show (horizontal_stage X oh ow inter h_a H K).sample (mirror_row inter.height _) c = _
  rw [hh, horizontal_stage_sample X oh ow inter h_a H K _ c hst hmr hc]
  rfl

/-- With borders of at least `H` the asserts pass and the filter returns the
buffers computed by the five loops. -/
theorem apply_LOG_filter_ok (s : LOG_buffers) (h_11 h_12 h_21 h_22 : List Int) (H K : Nat)
    (alpha : ℚ)
    (hb : (H : Int) ≤ s.inp.border ∧ (H : Int) ≤ s.inter_1.border ∧
      (H : Int) ≤ s.inter_2.border) :
    apply_LOG_filter s h_11 h_12 h_21 h_22 H K alpha =
      Except.ok
        { inp := level_shift s.inp,
          out := combine_stage
            (vertical_stage (horizontal_stage (level_shift s.inp) s.out.height s.out.width
              s.inter_1 h_11 H K).perform_boundary_extension s.out.height s.out.width s.y1
              h_12 H K)
            (vertical_stage (horizontal_stage (level_shift s.inp) s.out.height s.out.width
              s.inter_2 h_21 H K).perform_boundary_extension s.out.height s.out.width s.y2
              h_22 H K) s.out alpha,
          inter_1 := (horizontal_stage (level_shift s.inp) s.out.height s.out.width
            s.inter_1 h_11 H K).perform_boundary_extension,
          inter_2 := (horizontal_stage (level_shift s.inp) s.out.height s.out.width
            s.inter_2 h_21 H K).perform_boundary_extension,
          y1 := vertical_stage (horizontal_stage (level_shift s.inp) s.out.height s.out.width
            s.inter_1 h_11 H K).perform_boundary_extension s.out.height s.out.width s.y1
            h_12 H K,
          y2 := vertical_stage (horizontal_stage (level_shift s.inp) s.out.height s.out.width
            s.inter_2 h_21 H K).perform_boundary_extension s.out.height s.out.width s.y2
            h_22 H K } := by
  have hb' : (H : Int) ≤ (level_shift s.inp).border ∧ (H : Int) ≤ s.inter_1.border ∧
      (H : Int) ≤ s.inter_2.border := hb
  unfold apply_LOG_filter
  simp only
  rw [if_pos hb']

/-- With a border below `H` somewhere, an assert fails after the level shift
and before any loop of the convolution. -/
theorem apply_LOG_filter_error (s : LOG_buffers) (h_11 h_12 h_21 h_22 : List Int) (H K : Nat)
    (alpha : ℚ)
    (hb : ¬ ((H : Int) ≤ s.inp.border ∧ (H : Int) ≤ s.inter_1.border ∧
      (H : Int) ≤ s.inter_2.border)) :
    apply_LOG_filter s h_11 h_12 h_21 h_22 H K alpha =
      Except.error { s with inp := level_shift s.inp } := by
  have hb' : ¬ ((H : Int) ≤ (level_shift s.inp).border ∧ (H : Int) ≤ s.inter_1.border ∧
      (H : Int) ≤ s.inter_2.border) := hb
  unfold apply_LOG_filter
  simp only
  rw [if_neg hb']

/-- The output of the filter, pixel by pixel, in terms of the buffer `X` that
the horizontal stages read (the input after the level shift). -/
theorem apply_LOG_filter_pixel (s res : LOG_buffers) (h_11 h_12 h_21 h_22 : List Int)
    (H K : Nat) (alpha : ℚ) (hcons : s.consistent H) (hH : (H : Int) ≤ s.out.height - 1)
    (hres : apply_LOG_filter s h_11 h_12 h_21 h_22 H K alpha = Except.ok res)
    (r c : Int) (hr : 0 ≤ r ∧ r < s.out.height) (hc : 0 ≤ c ∧ c < s.out.width) :
    res.y1.sample r c = path_value (level_shift s.inp) s.out.height h_11 h_12 H K r c ∧
    res.y2.sample r c = path_value (level_shift s.inp) s.out.height h_21 h_22 H K r c ∧
    res.out.sample r c =
      combine_sample (path_value (level_shift s.inp) s.out.height h_11 h_12 H K r c)
        (path_value (level_shift s.inp) s.out.height h_21 h_22 H K r c) alpha := by
  obtain ⟨_, ⟨w1, g1⟩, ⟨w2, g2⟩, ⟨_, f1, f2⟩, hb, ⟨s1, s2, s3⟩⟩ := hcons
  rw [apply_LOG_filter_ok s h_11 h_12 h_21 h_22 H K alpha hb] at hres
  have e := (Except.ok.inj hres).symm
  subst e
  have p1 := path_sample (level_shift s.inp) s.inter_1 s.y1 s.out.height s.out.width h_11 h_12
    H K r c f1 w1 g1 hb.2.1 hH s1 hr hc
  have p2 := path_sample (level_shift s.inp) s.inter_2 s.y2 s.out.height s.out.width h_21 h_22
    H K r c f2 w2 g2 hb.2.2 hH s2 hr hc
  refine ⟨p1, p2, ?_⟩
  show (combine_stage _ _ s.out alpha).sample r c = _
  rw [combine_stage_sample _ _ s.out alpha r c s3 hr hc, p1, p2]

/-- The extension of the input does not change the shape of the buffers. -/
theorem main_filter_consistent (s : LOG_buffers) (H : Nat) (hcons : s.consistent H) :
    ({ s with inp := s.inp.perform_boundary_extension } : LOG_buffers).consistent H :=
  hcons

/-- With buffers as `main` allocates them, the filter returns. -/
theorem main_filter_ok (s : LOG_buffers) (h_11 h_12 h_21 h_22 : List Int) (H K : Nat)
    (alpha : ℚ) (hcons : s.consistent H) :
    ∃ res, main_filter s h_11 h_12 h_21 h_22 H K alpha = Except.ok res :=
  ⟨_, apply_LOG_filter_ok _ h_11 h_12 h_21 h_22 H K alpha hcons.2.2.2.2.1⟩

/-- The output of the pipeline of `main`, pixel by pixel. -/
theorem main_filter_pixel (s res : LOG_buffers) (h_11 h_12 h_21 h_22 : List Int)
    (H K : Nat) (alpha : ℚ) (hcons : s.consistent H) (hH : (H : Int) ≤ s.out.height - 1)
    (hres : main_filter s h_11 h_12 h_21 h_22 H K alpha = Except.ok res)
    (r c : Int) (hr : 0 ≤ r ∧ r < s.out.height) (hc : 0 ≤ c ∧ c < s.out.width) :
    res.y1.sample r c =
      path_value (level_shift s.inp.perform_boundary_extension) s.out.height h_11 h_12 H K
        r c ∧
    res.y2.sample r c =
      path_value (level_shift s.inp.perform_boundary_extension) s.out.height h_21 h_22 H K
        r c ∧
    res.out.sample r c =
      combine_sample
        (path_value (level_shift s.inp.perform_boundary_extension) s.out.height h_11 h_12 H K
          r c)
        (path_value (level_shift s.inp.perform_boundary_extension) s.out.height h_21 h_22 H K
          r c) alpha :=
  apply_LOG_filter_pixel _ res h_11 h_12 h_21 h_22 H K alpha
    (main_filter_consistent s H hcons) hH hres r c hr hc

/-- The byte emitted for integer partial results and an integer `alpha`. -/
theorem emitted_byte_int (p1 p2 a : Int) :
    emitted_byte p1 p2 (a : ℚ) = max 0 (min 255 ((p1 + p2) * a + 128)) := by
  have hc : combine_sample p1 p2 (a : ℚ) = (((p1 + p2) * a + 128 : Int) : ℚ) := by
    unfold combine_sample; push_cast; ring
  unfold emitted_byte
  rw [to_io_byte_of_range _ (clamp_sample_range _), hc]
  unfold clamp_sample
  split_ifs with h1 h2
  · have : (255 : Int) < (p1 + p2) * a + 128 := by exact_mod_cast h1
    have e : ⌊(255 : ℚ)⌋ = 255 := by norm_num
    rw [e]; omega
  · have : (p1 + p2) * a + 128 < (0 : Int) := by exact_mod_cast h2
    have e : ⌊(0 : ℚ)⌋ = 0 := by norm_num
    rw [e]; omega
  · have g1 : ¬ (255 : Int) < (p1 + p2) * a + 128 := by
      intro h; apply h1; exact_mod_cast h
    have g2 : ¬ (p1 + p2) * a + 128 < (0 : Int) := by
      intro h; apply h2; exact_mod_cast h
    rw [Int.floor_intCast]; omega

/-- The byte written for a pixel whose output sample is a combination. -/
theorem output_byte_of_sample (out : my_image_comp ℚ) (r c p1 p2 a : Int)
    (h : out.sample r c = combine_sample p1 p2 (a : ℚ)) :
    output_byte out r c = max 0 (min 255 ((p1 + p2) * a + 128)) := by
  unfold output_byte
  rw [h]
  exact emitted_byte_int p1 p2 a

/-! ## The filter as a whole: the claims -/

/-- C11 fails on the code: for `sigma = 0.3` (`H = 1`, `K = 22`) and the
all-black 3 by 3 image, the accumulator of the first horizontal stage at pixel
`(1, 1)` holds 10136504320 after two passes, outside the signed 32-bit range. -/
theorem accumulator_overflows_sigma_03 :
    accumulate (fun k => (level_shift black_3x3.perform_boundary_extension).sample 1 (1 + k))
      h_11_sigma_03 1 2 = 10136504320 ∧
    ¬ in_int32 (accumulate
      (fun k => (level_shift black_3x3.perform_boundary_extension).sample 1 (1 + k))
      h_11_sigma_03 1 2) := by
  decide

/-- C12 fails on the code: for the constant image of value 128 (3 by 3,
`sigma = 0.5`, `alpha = 1`) the pipeline of `main` returns, and the byte written
for the corner pixel `(0, 0)` is 255, not 128: its horizontal stages read the
border columns of the input, which still hold 128 after the level shift. -/
theorem constant_field_edge_response :
    ∃ res, main_filter (fresh_buffers grey_3x3) h_11_sigma_05 h_12_sigma_05 h_12_sigma_05
        h_11_sigma_05 2 21 ((1 : Int) : ℚ) = Except.ok res ∧
      res.y1.sample 0 0 = 169 ∧ res.y2.sample 0 0 = -8 ∧ output_byte res.out 0 0 = 255 := by
  obtain ⟨res, hres⟩ := main_filter_ok (fresh_buffers grey_3x3) h_11_sigma_05 h_12_sigma_05
    h_12_sigma_05 h_11_sigma_05 2 21 ((1 : Int) : ℚ) (by decide)
  obtain ⟨e1, e2, e3⟩ := main_filter_pixel (fresh_buffers grey_3x3) res h_11_sigma_05
    h_12_sigma_05 h_12_sigma_05 h_11_sigma_05 2 21 ((1 : Int) : ℚ) (by decide) (by decide)
    hres 0 0 (by decide) (by decide)
  have v1 : path_value (level_shift (fresh_buffers grey_3x3).inp.perform_boundary_extension)
      (fresh_buffers grey_3x3).out.height h_11_sigma_05 h_12_sigma_05 2 21 0 0 = 169 := by
    decide
  have v2 : path_value (level_shift (fresh_buffers grey_3x3).inp.perform_boundary_extension)
      (fresh_buffers grey_3x3).out.height h_12_sigma_05 h_11_sigma_05 2 21 0 0 = -8 := by
    decide
  rw [v1, v2] at e3
  rw [v1] at e1
  rw [v2] at e2
  refine ⟨res, hres, e1, e2, ?_⟩
  rw [output_byte_of_sample res.out 0 0 169 (-8) 1 e3]
  decide

/-- C14: `apply_LOG_filter` aborts if and only if one of `in`, `inter_1`,
`inter_2` has a border below `H`; when it aborts, `inter_1`, `inter_2`, `y1`,
`y2` and `out` are as they were (no convolution loop has run). -/
theorem border_precondition (s : LOG_buffers) (h_11 h_12 h_21 h_22 : List Int) (H K : Nat)
    (alpha : ℚ) :
    ((∃ e, apply_LOG_filter s h_11 h_12 h_21 h_22 H K alpha = Except.error e) ↔
      (s.inp.border < H ∨ s.inter_1.border < H ∨ s.inter_2.border < H)) ∧
    (∀ e, apply_LOG_filter s h_11 h_12 h_21 h_22 H K alpha = Except.error e →
      e.inter_1 = s.inter_1 ∧ e.inter_2 = s.inter_2 ∧ e.y1 = s.y1 ∧ e.y2 = s.y2 ∧
        e.out = s.out) := by
  by_cases hb : (H : Int) ≤ s.inp.border ∧ (H : Int) ≤ s.inter_1.border ∧
      (H : Int) ≤ s.inter_2.border
  · rw [apply_LOG_filter_ok s h_11 h_12 h_21 h_22 H K alpha hb]
    refine ⟨⟨?_, ?_⟩, ?_⟩
    · rintro ⟨e, he⟩
      exact absurd he (by simp)
    · intro h
      omega
    · intro e he
      exact absurd he (by simp)
  · rw [apply_LOG_filter_error s h_11 h_12 h_21 h_22 H K alpha hb]
    refine ⟨⟨?_, ?_⟩, ?_⟩
    · intro _
      omega
    · intro _
      exact ⟨_, rfl⟩
    · intro e he
      have := Except.error.inj he
      subst this
      exact ⟨rfl, rfl, rfl, rfl, rfl⟩

theorem border_precondition_witness :
    apply_LOG_filter (fresh_buffers black_3x3) h_11_sigma_05 h_12_sigma_05 h_12_sigma_05
        h_11_sigma_05 2 21 1 =
      Except.error { fresh_buffers black_3x3 with inp := level_shift black_3x3 } ∧
    ({ fresh_buffers black_3x3 with inp := level_shift black_3x3 } : LOG_buffers).inter_1 =
      (fresh_buffers black_3x3).inter_1 :=
  ⟨apply_LOG_filter_error _ _ _ _ _ 2 21 1 (by decide),
    ((border_precondition (fresh_buffers black_3x3) h_11_sigma_05 h_12_sigma_05 h_12_sigma_05
      h_11_sigma_05 2 21 1).2 _
        (apply_LOG_filter_error _ _ _ _ _ 2 21 1 (by decide))).1⟩

/-- C15: whatever the outcome of the call, every interior sample of the input
buffer (an integer below `2^24` in magnitude, as every 8-bit sample is) ends as
its value before the call minus 128; and when the filter returns, both
intermediate buffers are computed from that same level-shifted input buffer. -/
theorem input_level_shift (s : LOG_buffers) (h_11 h_12 h_21 h_22 : List Int) (H K : Nat)
    (alpha : ℚ) (hs : s.inp.width ≤ s.inp.stride) (r c : Int)
    (hr : 0 ≤ r ∧ r < s.inp.height) (hc : 0 ≤ c ∧ c < s.inp.width)
    (hx : (s.inp.sample r c - 128).natAbs < 2 ^ 24) :
    (∀ res, (apply_LOG_filter s h_11 h_12 h_21 h_22 H K alpha = Except.ok res ∨
        apply_LOG_filter s h_11 h_12 h_21 h_22 H K alpha = Except.error res) →
      res.inp.sample r c = s.inp.sample r c - 128) ∧
    (∀ res, apply_LOG_filter s h_11 h_12 h_21 h_22 H K alpha = Except.ok res →
      res.inter_1 = (horizontal_stage res.inp s.out.height s.out.width s.inter_1 h_11 H
        K).perform_boundary_extension ∧
      res.inter_2 = (horizontal_stage res.inp s.out.height s.out.width s.inter_2 h_21 H
        K).perform_boundary_extension) := by
  have hshift : (level_shift s.inp).sample r c = s.inp.sample r c - 128 := by
    rw [level_shift_sample s.inp hs r c hr hc, f32_small _ hx]
  by_cases hb : (H : Int) ≤ s.inp.border ∧ (H : Int) ≤ s.inter_1.border ∧
      (H : Int) ≤ s.inter_2.border
  · rw [apply_LOG_filter_ok s h_11 h_12 h_21 h_22 H K alpha hb]
    constructor
    · rintro res (h | h)
      · have := Except.ok.inj h
        subst this
        exact hshift
      · exact absurd h (by simp)
    · intro res h
      have := Except.ok.inj h
      subst this
      exact ⟨rfl, rfl⟩
  · rw [apply_LOG_filter_error s h_11 h_12 h_21 h_22 H K alpha hb]
    constructor
    · rintro res (h | h)
      · exact absurd h (by simp)
      · have := Except.error.inj h
        subst this
        exact hshift
    · intro res h
      exact absurd h (by simp)

theorem input_level_shift_witness :
    (fresh_buffers grey_3x3).inp.width ≤ (fresh_buffers grey_3x3).inp.stride ∧
    ((fresh_buffers grey_3x3).inp.sample 1 1 - 128).natAbs < 2 ^ 24 ∧
    (∀ res, (apply_LOG_filter (fresh_buffers grey_3x3) h_11_sigma_05 h_12_sigma_05
          h_12_sigma_05 h_11_sigma_05 2 21 1 = Except.ok res ∨
        apply_LOG_filter (fresh_buffers grey_3x3) h_11_sigma_05 h_12_sigma_05
          h_12_sigma_05 h_11_sigma_05 2 21 1 = Except.error res) →
      res.inp.sample 1 1 = (fresh_buffers grey_3x3).inp.sample 1 1 - 128) :=
  ⟨by decide, by decide,
    (input_level_shift (fresh_buffers grey_3x3) h_11_sigma_05 h_12_sigma_05 h_12_sigma_05
      h_11_sigma_05 2 21 1 (by decide) 1 1 (by decide) (by decide) (by decide)).1⟩

/-- C16 fails on the code: in the pipeline of `main` the input is extended
before the level shift and not again after it.  For the constant image of value
128 the border sample `(0, -1)`, which the horizontal stages read for pixel
`(0, 0)`, holds 128, while the mirror of the current interior, sample `(0, 1)`,
is 0. -/
theorem input_border_is_stale :
    (level_shift grey_3x3.perform_boundary_extension).sample 0 (-1) = 128 ∧
    (level_shift grey_3x3.perform_boundary_extension).sample 0 1 = 0 ∧
    inter_value (level_shift grey_3x3.perform_boundary_extension) h_11_sigma_05 2 21 0 0 =
      133 := by
  decide

/-- C18: when `in`, `inter_1` and `inter_2` have a border of at least `H` and
`H ≤ min(width, height) - 1`, two runs of `apply_LOG_filter` on the same input
buffer, kernels, `H`, `K` and `alpha` that differ in the initial contents of
`inter_1`, `inter_2`, `y1`, `y2` and `out` both return, with the same `out`
sample at every interior pixel. -/
theorem scratch_independence (s s' : LOG_buffers) (h_11 h_12 h_21 h_22 : List Int)
    (H K : Nat) (alpha : ℚ) (hcons : s.consistent H) (hcons' : s'.consistent H)
    (hin : s'.inp = s.inp) (hH : (H : Int) ≤ min s.out.width s.out.height - 1)
    (r c : Int) (hr : 0 ≤ r ∧ r < s.out.height) (hc : 0 ≤ c ∧ c < s.out.width) :
    ∃ res res', apply_LOG_filter s h_11 h_12 h_21 h_22 H K alpha = Except.ok res ∧
      apply_LOG_filter s' h_11 h_12 h_21 h_22 H K alpha = Except.ok res' ∧
      res.out.sample r c = res'.out.sample r c := by
  have hres := apply_LOG_filter_ok s h_11 h_12 h_21 h_22 H K alpha hcons.2.2.2.2.1
  have hres' := apply_LOG_filter_ok s' h_11 h_12 h_21 h_22 H K alpha hcons'.2.2.2.2.1
  have hw' : s'.out.width = s.out.width := by
    rw [← hcons'.1.1, ← hcons.1.1, hin]
  have hh' : s'.out.height = s.out.height := by
    rw [← hcons'.1.2, ← hcons.1.2, hin]
  refine ⟨_, _, hres, hres', ?_⟩
  rw [(apply_LOG_filter_pixel s _ h_11 h_12 h_21 h_22 H K alpha hcons (by omega) hres r c
      hr hc).2.2,
    (apply_LOG_filter_pixel s' _ h_11 h_12 h_21 h_22 H K alpha hcons' (by omega) hres' r c
      (by omega) (by omega)).2.2, hin, hh']

theorem scratch_independence_witness :
    (fresh_buffers grey_3x3).consistent 2 ∧ (used_buffers grey_3x3).consistent 2 ∧
    ∃ res res', apply_LOG_filter (fresh_buffers grey_3x3) h_11_sigma_05 h_12_sigma_05
        h_12_sigma_05 h_11_sigma_05 2 21 1 = Except.ok res ∧
      apply_LOG_filter (used_buffers grey_3x3) h_11_sigma_05 h_12_sigma_05
        h_12_sigma_05 h_11_sigma_05 2 21 1 = Except.ok res' ∧
      res.out.sample 1 2 = res'.out.sample 1 2 :=
  ⟨by decide, by decide,
    scratch_independence (fresh_buffers grey_3x3) (used_buffers grey_3x3) h_11_sigma_05
      h_12_sigma_05 h_12_sigma_05 h_11_sigma_05 2 21 1 (by decide) (by decide) rfl
      (by decide) 1 2 (by decide) (by decide)⟩

/-! ## Bounds on the accumulators: lemmas -/

theorem spare_bits_lower (fuel a : Nat) :
    spare_bits fuel a = 0 ∨ 2 ^ spare_bits fuel a * 2 ^ 23 ≤ a := by
  induction fuel generalizing a with
  | zero => exact Or.inl rfl
  | succ k ih =>
    unfold spare_bits
    by_cases h : a < 2 ^ 24
    · rw [if_pos h]
      exact Or.inl rfl
    · rw [if_neg h]
      right
      have h2 : 2 * (a / 2) ≤ a := Nat.mul_div_le a 2
      rcases ih (a / 2) with e | e
      · rw [e]
        norm_num at h ⊢
        omega
      · rw [pow_succ]
        calc 2 ^ spare_bits k (a / 2) * 2 * 2 ^ 23
            = 2 * (2 ^ spare_bits k (a / 2) * 2 ^ 23) := by ring
          _ ≤ 2 * (a / 2) := Nat.mul_le_mul_left 2 e
          _ ≤ a := h2

theorem natAbs_sign_mul_le (n : Int) (m : Nat) : (n.sign * (m : Int)).natAbs ≤ m := by
  rw [Int.natAbs_mul, Int.natAbs_ofNat]
  rcases lt_trichotomy n 0 with h | h | h
  · rw [Int.sign_eq_neg_one_of_neg h]; simp
  · rw [h]; simp
  · rw [Int.sign_eq_one_of_pos h]; simp

/-- Rounding to single precision enlarges a magnitude by at most one unit in
the last place. -/
theorem f32_natAbs_le (n : Int) : (f32 n).natAbs ≤ inflate n.natAbs := by
  unfold f32 inflate
  simp only
  refine le_trans (natAbs_sign_mul_le _ _) ?_
  have hq : n.natAbs / 2 ^ spare_bits n.natAbs n.natAbs * 2 ^ spare_bits n.natAbs n.natAbs ≤
      n.natAbs := Nat.div_mul_le_self _ _
  rcases spare_bits_lower n.natAbs n.natAbs with e | e
  · rw [e]
    simp only [pow_zero, Nat.div_one, Nat.mod_one, mul_zero, mul_one]
    have h1 : ¬ ((1 : Nat) < 0 ∨ ((0 : Nat) = 1 ∧ n.natAbs % 2 = 1)) := by omega
    rw [if_neg h1]
    exact Nat.le_add_right _ _
  · have hu : 2 ^ spare_bits n.natAbs n.natAbs ≤ n.natAbs / 2 ^ 23 :=
      (Nat.le_div_iff_mul_le (by norm_num)).2 e
    split_ifs
    · calc (n.natAbs / 2 ^ spare_bits n.natAbs n.natAbs + 1) * 2 ^ spare_bits n.natAbs n.natAbs
          = n.natAbs / 2 ^ spare_bits n.natAbs n.natAbs * 2 ^ spare_bits n.natAbs n.natAbs +
              2 ^ spare_bits n.natAbs n.natAbs := by ring
        _ ≤ n.natAbs + n.natAbs / 2 ^ 23 := Nat.add_le_add hq hu
    · exact le_trans hq (Nat.le_add_right _ _)

theorem inflate_mono {a b : Nat} (h : a ≤ b) : inflate a ≤ inflate b := by
  unfold inflate
  exact Nat.add_le_add h (Nat.div_le_div_right h)

theorem le_inflate (a : Nat) : a ≤ inflate a := Nat.le_add_right _ _

theorem accumulate_step_natAbs_le (sum x h : Int) (B xb hb : Nat)
    (hs : sum.natAbs ≤ B) (hx : x.natAbs ≤ xb) (hh : h.natAbs ≤ hb) :
    (accumulate_step sum x h).natAbs ≤ inflate (inflate B + inflate (xb * inflate hb)) := by
  unfold accumulate_step
  refine le_trans (f32_natAbs_le _) (inflate_mono ?_)
  refine le_trans (Int.natAbs_add_le _ _) (Nat.add_le_add ?_ ?_)
  · exact le_trans (f32_natAbs_le _) (inflate_mono hs)
  · refine le_trans (f32_natAbs_le _) (inflate_mono ?_)
    rw [Int.natAbs_mul]
    exact Nat.mul_le_mul hx (le_trans (f32_natAbs_le _) (inflate_mono hh))

/-- The accumulator stays within the bound computed from the magnitudes. -/
theorem accumulate_natAbs_le (ip : Int → Int) (h : List Int) (H : Nat) (xb hb : List Nat)
    (n : Nat) (hx : ∀ i, i < n → (ip ((i : Int) - H)).natAbs ≤ xb.getD i 0)
    (hh : ∀ i, i < n → (h.getD i 0).natAbs ≤ hb.getD i 0) :
    (accumulate ip h H n).natAbs ≤ accumulate_bound xb hb n := by
  induction n with
  | zero => exact Nat.le_refl _
  | succ n ih =>
    exact accumulate_step_natAbs_le _ _ _ _ _ _
      (ih (fun i hi => hx i (Nat.lt_succ_of_lt hi)) (fun i hi => hh i (Nat.lt_succ_of_lt hi)))
      (hx n (Nat.lt_succ_self n)) (hh n (Nat.lt_succ_self n))

theorem accumulate_bound_step (xb hb : List Nat) (n : Nat) :
    accumulate_bound xb hb n ≤ accumulate_bound xb hb (n + 1) := by
  show _ ≤ inflate (inflate _ + _)
  exact le_trans (le_inflate _) (le_trans (Nat.le_add_right _ _) (le_inflate _))

theorem accumulate_bound_mono (xb hb : List Nat) {n N : Nat} (h : n ≤ N) :
    accumulate_bound xb hb n ≤ accumulate_bound xb hb N := by
  induction N with
  | zero =>
    have : n = 0 := by omega
    rw [this]
  | succ N ih =>
    rcases Nat.lt_or_ge n (N + 1) with h1 | h1
    · exact le_trans (ih (by omega)) (accumulate_bound_step xb hb N)
    · have : n = N + 1 := by omega
      rw [this]

/-- Every accumulator value of a loop of `N` passes is a 32-bit `int` when the
bound for `N` passes is below `2^31`. -/
theorem accumulate_in_int32 (ip : Int → Int) (h : List Int) (H : Nat) (xb hb : List Nat)
    (N n : Nat) (hn : n ≤ N)
    (hx : ∀ i, i < N → (ip ((i : Int) - H)).natAbs ≤ xb.getD i 0)
    (hh : ∀ i, i < N → (h.getD i 0).natAbs ≤ hb.getD i 0)
    (hB : accumulate_bound xb hb N < 2 ^ 31) :
    in_int32 (accumulate ip h H n) ∧ (accumulate ip h H n).natAbs ≤ accumulate_bound xb hb N := by
  have h1 := accumulate_natAbs_le ip h H xb hb n (fun i hi => hx i (by omega))
    (fun i hi => hh i (by omega))
  have h2 := accumulate_bound_mono xb hb hn
  refine ⟨?_, le_trans h1 h2⟩
  unfold in_int32
  have : (accumulate ip h H n).natAbs < 2 ^ 31 := by omega
  omega

/-! ## The buffer read by the horizontal stages -/

/-- Interior samples of the input at the time of the horizontal stages: the
image sample minus 128. -/
theorem shifted_input_interior (b : my_image_comp Int) (hwf : b.well_formed)
    (hB : 0 ≤ b.border) (r c : Int) (hr : 0 ≤ r ∧ r < b.height) (hc : 0 ≤ c ∧ c < b.width) :
    (level_shift b.perform_boundary_extension).sample r c = f32 (b.sample r c - 128) := by
  have hst : b.perform_boundary_extension.width ≤ b.perform_boundary_extension.stride := by
    unfold my_image_comp.well_formed at hwf
    show b.width ≤ b.stride
    omega
  rw [level_shift_sample _ hst r c hr hc, extension_keeps_interior b hwf r c hr hc]

/-- Left border samples of the input at the time of the horizontal stages: the
image sample of the mirror column, not level-shifted. -/
theorem shifted_input_left (b : my_image_comp Int) (hwf : b.well_formed) (r k : Int)
    (hr : 0 ≤ r ∧ r < b.height) (hk : 1 ≤ k ∧ k ≤ b.border) (hkw : k ≤ b.width - 1) :
    (level_shift b.perform_boundary_extension).sample r (-k) = b.sample r k := by
  have hwf' : b.perform_boundary_extension.well_formed := hwf
  rw [level_shift_border _ hwf' r (-k)
      (by show -b.border ≤ -k ∧ -k < b.width + b.border; omega) (Or.inl (by omega)),
    extension_mirror_left b hwf r k (by omega) hk hkw,
    extension_keeps_interior b hwf r k hr (by omega)]

/-- Right border samples of the input at the time of the horizontal stages. -/
theorem shifted_input_right (b : my_image_comp Int) (hwf : b.well_formed) (r k : Int)
    (hr : 0 ≤ r ∧ r < b.height) (hk : 1 ≤ k ∧ k ≤ b.border) (hkw : k ≤ b.width - 1) :
    (level_shift b.perform_boundary_extension).sample r (b.width - 1 + k) =
      b.sample r (b.width - 1 - k) := by
  have hwf' : b.perform_boundary_extension.well_formed := hwf
  rw [level_shift_border _ hwf' r (b.width - 1 + k)
      (by show -b.border ≤ b.width - 1 + k ∧ b.width - 1 + k < b.width + b.border; omega)
      (Or.inr (by show b.width ≤ b.width - 1 + k; omega)),
    extension_mirror_right b hwf r k (by omega) hk hkw,
    extension_keeps_interior b hwf r (b.width - 1 - k) hr (by omega)]

/-- For an 8-bit image, interior samples read by the horizontal stages are at
most 128 in magnitude. -/
theorem shifted_input_interior_le (b : my_image_comp Int) (hwf : b.well_formed)
    (hB : 0 ≤ b.border) (h8 : eight_bit b) (r c : Int) (hr : 0 ≤ r ∧ r < b.height)
    (hc : 0 ≤ c ∧ c < b.width) :
    ((level_shift b.perform_boundary_extension).sample r c).natAbs ≤ 128 := by
  have hx := h8 r c hr hc
  rw [shifted_input_interior b hwf hB r c hr hc, f32_small _ (by omega)]
  omega

/-- For an 8-bit image, every sample read by the horizontal stages, border
included, is at most 255 in magnitude. -/
theorem shifted_input_le (b : my_image_comp Int) (hwf : b.well_formed) (h8 : eight_bit b)
    (H r c : Int) (hb : H ≤ b.border) (hH : H ≤ b.width - 1) (hH0 : 0 ≤ H)
    (hr : 0 ≤ r ∧ r < b.height) (hc : -H ≤ c ∧ c ≤ b.width - 1 + H) :
    ((level_shift b.perform_boundary_extension).sample r c).natAbs ≤ 255 := by
  by_cases h1 : c < 0
  · have := shifted_input_left b hwf r (-c) hr (by omega) (by omega)
    rw [neg_neg] at this
    rw [this]
    have hx := h8 r (-c) hr (by omega)
    omega
  · by_cases h2 : b.width ≤ c
    · have := shifted_input_right b hwf r (c - (b.width - 1)) hr (by omega) (by omega)
      have e1 : b.width - 1 + (c - (b.width - 1)) = c := by ring
      rw [e1] at this
      rw [this]
      have hx := h8 r (b.width - 1 - (c - (b.width - 1))) hr (by omega)
      omega
    · have := shifted_input_interior_le b hwf (by omega) h8 r c hr (by omega)
      omega

/-! ## Overflow safety for `sigma = 0.5` -/

theorem shift_21_natAbs_le (n : Int) :
    (n >>> (21 : Nat)).natAbs ≤ n.natAbs / 2 ^ 21 + 1 := by
  rw [Int.shiftRight_eq_div_pow]
  norm_num
  omega

/-- Magnitude of what a horizontal stage with `K = 21` stores, from a bound on
its accumulator. -/
theorem inter_value_natAbs_le (X : my_image_comp Int) (h : List Int) (H : Nat) (r c : Int)
    (B : Nat) (hacc : (accumulate (fun k => X.sample r (c + k)) h H (2 * H + 1)).natAbs ≤ B)
    (hB : B < 2 ^ 31) :
    (inter_value X h H 21 r c).natAbs ≤ B / 2 ^ 21 + 1 := by
  unfold inter_value
  have h1 := shift_21_natAbs_le (accumulate (fun k => X.sample r (c + k)) h H (2 * H + 1))
  have h2 : (accumulate (fun k => X.sample r (c + k)) h H (2 * H + 1)).natAbs / 2 ^ 21 ≤
      B / 2 ^ 21 := Nat.div_le_div_right hacc
  have h3 : B / 2 ^ 21 < 2 ^ 10 := by
    rw [Nat.div_lt_iff_lt_mul (by norm_num)]
    norm_num at hB ⊢
    omega
  rw [f32_small _ (by norm_num at h1 h2 h3 ⊢; omega)]
  omega

/-- The accumulators of a horizontal stage with five taps on an 8-bit image of
at least three columns: the samples read follow one of three patterns (two
border samples on the left, two on the right, or one on either side). -/
theorem horizontal_accumulate_bound (b : my_image_comp Int) (hwf : b.well_formed)
    (hb : 2 ≤ b.border) (h8 : eight_bit b) (hw : 3 ≤ b.width) (h : List Int) (m : List Nat)
    (hm : within_taps h m) (hlen : m.length = 5) (B : Nat)
    (hL : accumulate_bound [255, 255, 128, 128, 128] m 5 ≤ B)
    (hR : accumulate_bound [128, 128, 128, 255, 255] m 5 ≤ B)
    (hM : accumulate_bound [255, 128, 128, 128, 255] m 5 ≤ B) (hB : B < 2 ^ 31)
    (r c : Int) (hr : 0 ≤ r ∧ r < b.height) (hc : 0 ≤ c ∧ c < b.width) (n : Nat)
    (hn : n ≤ 5) :
    in_int32 (accumulate (fun k => (level_shift b.perform_boundary_extension).sample r (c + k))
      h 2 n) ∧
    (accumulate (fun k => (level_shift b.perform_boundary_extension).sample r (c + k))
      h 2 n).natAbs ≤ B := by
  have hh : ∀ i, i < 5 → (h.getD i 0).natAbs ≤ m.getD i 0 := fun i hi => hm i (by omega)
  have hany : ∀ k : Int, -2 ≤ k ∧ k ≤ 2 →
      ((level_shift b.perform_boundary_extension).sample r (c + k)).natAbs ≤ 255 :=
    fun k hk => shifted_input_le b hwf h8 2 r (c + k) hb (by omega) (by omega) hr (by omega)
  have hint : ∀ k : Int, 0 ≤ c + k ∧ c + k < b.width →
      ((level_shift b.perform_boundary_extension).sample r (c + k)).natAbs ≤ 128 :=
    fun k hk => shifted_input_interior_le b hwf (by omega) h8 r (c + k) hr hk
  by_cases c0 : c = 0
  · have := accumulate_in_int32
      (fun k => (level_shift b.perform_boundary_extension).sample r (c + k)) h 2
      [255, 255, 128, 128, 128] m 5 n hn
      (by
        intro i hi
        interval_cases i
        · exact hany _ (by norm_num)
        · exact hany _ (by norm_num)
        · exact hint _ (by norm_num; omega)
        · exact hint _ (by norm_num; omega)
        · exact hint _ (by norm_num; omega)) hh (by omega)
    exact ⟨this.1, le_trans this.2 hL⟩
  · by_cases c1 : c = 1 ∧ b.width = 3
    · have := accumulate_in_int32
        (fun k => (level_shift b.perform_boundary_extension).sample r (c + k)) h 2
        [255, 128, 128, 128, 255] m 5 n hn
        (by
          intro i hi
          interval_cases i
          · exact hany _ (by norm_num)
          · exact hint _ (by norm_num; omega)
          · exact hint _ (by norm_num; omega)
          · exact hint _ (by norm_num; omega)
          · exact hany _ (by norm_num)) hh (by omega)
      exact ⟨this.1, le_trans this.2 hM⟩
    · by_cases c2 : c = 1
      · have := accumulate_in_int32
          (fun k => (level_shift b.perform_boundary_extension).sample r (c + k)) h 2
          [255, 255, 128, 128, 128] m 5 n hn
          (by
            intro i hi
            interval_cases i
            · exact hany _ (by norm_num)
            · exact hany _ (by norm_num)
            · exact hint _ (by norm_num; omega)
            · exact hint _ (by norm_num; omega)
            · exact hint _ (by norm_num; omega)) hh (by omega)
        exact ⟨this.1, le_trans this.2 hL⟩
      · have := accumulate_in_int32
          (fun k => (level_shift b.perform_boundary_extension).sample r (c + k)) h 2
          [128, 128, 128, 255, 255] m 5 n hn
          (by
            intro i hi
            interval_cases i
            · exact hint _ (by norm_num; omega)
            · exact hint _ (by norm_num; omega)
            · exact hint _ (by norm_num; omega)
            · exact hany _ (by norm_num)
            · exact hany _ (by norm_num)) hh (by omega)
        exact ⟨this.1, le_trans this.2 hR⟩

/-- Samples of an extended intermediate buffer, at most `H` rows outside the
image: what the horizontal stage stored at the mirror row. -/
theorem extended_inter_sample (X inter : my_image_comp Int) (oh ow : Int) (h : List Int)
    (H K : Nat) (r c : Int) (hwf : inter.well_formed) (hw : inter.width = ow)
    (hh : inter.height = oh) (hb : (H : Int) ≤ inter.border) (hH : (H : Int) ≤ oh - 1)
    (hr : -(H : Int) ≤ r ∧ r ≤ oh - 1 + H) (hc : 0 ≤ c ∧ c < ow) :
    (horizontal_stage X oh ow inter h H K).perform_boundary_extension.sample r c =
      inter_value X h H K (mirror_row oh r) c := by
  have hwf' : (horizontal_stage X oh ow inter h H K).well_formed := hwf
  have hst : ow ≤ inter.stride := by
    unfold my_image_comp.well_formed at hwf
    omega
  have hmr : 0 ≤ mirror_row oh r ∧ mirror_row oh r < oh := by
    unfold mirror_row
    split_ifs <;> omega
  rw [extension_sample_mirror_row _ hwf' H r c hb (by show (H : Int) ≤ inter.height - 1; omega)
    (by show _ ∧ _ ≤ inter.height - 1 + _; omega) (by show _ ∧ _ < inter.width; omega)]
  show (horizontal_stage X oh ow inter h H K).sample (mirror_row inter.height r) c = _
  rw [hh, horizontal_stage_sample X oh ow inter h H K _ c hst hmr hc]
  rfl

/-- The accumulators of a vertical stage with five taps, from a bound `M` on
what the horizontal stage stores. -/
theorem vertical_accumulate_bound (X inter : my_image_comp Int) (oh ow : Int)
    (h_a h_b : List Int) (m : List Nat) (M : Nat) (hwf : inter.well_formed)
    (hw : inter.width = ow) (hh : inter.height = oh) (hb : 2 ≤ inter.border)
    (hH : 2 ≤ oh - 1) (hm : within_taps h_b m) (hlen : m.length = 5)
    (hM : ∀ r c : Int, 0 ≤ r ∧ r < oh → 0 ≤ c ∧ c < ow →
      (inter_value X h_a 2 21 r c).natAbs ≤ M)
    (hB : accumulate_bound [M, M, M, M, M] m 5 < 2 ^ 31)
    (r c : Int) (hr : 0 ≤ r ∧ r < oh) (hc : 0 ≤ c ∧ c < ow) (n : Nat) (hn : n ≤ 5) :
    in_int32 (accumulate
      (fun k => (horizontal_stage X oh ow inter h_a 2 21).perform_boundary_extension.sample
        (r + k) c) h_b 2 n) := by
  refine (accumulate_in_int32 _ h_b 2 [M, M, M, M, M] m 5 n hn ?_
    (fun i hi => hm i (by omega)) hB).1
  intro i hi
  show ((horizontal_stage X oh ow inter h_a 2 21).perform_boundary_extension.sample
    (r + ((i : Int) - (2 : Nat))) c).natAbs ≤ _
  rw [extended_inter_sample X inter oh ow h_a 2 21 _ c hwf hw hh (by norm_num; omega)
    (by norm_num; omega) (by norm_num; omega) hc]
  have hmr : 0 ≤ mirror_row oh (r + ((i : Int) - (2 : Nat))) ∧
      mirror_row oh (r + ((i : Int) - (2 : Nat))) < oh := by
    unfold mirror_row
    split_ifs <;> norm_num <;> omega
  refine le_trans (hM _ c hmr hc) ?_
  interval_cases i <;> exact Nat.le_refl _

/-- For integer kernels whose taps are within the magnitudes of the
`sigma = 0.5` kernels, `K = 21`, and every 8-bit image with more than two rows
and columns, the pipeline of `main` returns and no accumulator of the four
convolution loops leaves the signed 32-bit range. -/
theorem sigma_05_accumulators (s : LOG_buffers) (h_11 h_12 h_21 h_22 : List Int) (alpha : ℚ)
    (hcons : s.consistent 2) (h8 : eight_bit s.inp)
    (hsize : 2 < min s.out.width s.out.height)
    (k11 : within_taps h_11 taps_11_sigma_05) (k12 : within_taps h_12 taps_12_sigma_05)
    (k21 : within_taps h_21 taps_12_sigma_05) (k22 : within_taps h_22 taps_11_sigma_05)
    (r c : Int) (hr : 0 ≤ r ∧ r < s.out.height) (hc : 0 ≤ c ∧ c < s.out.width) (n : Nat)
    (hn : n ≤ 5) :
    ∃ res, main_filter s h_11 h_12 h_21 h_22 2 21 alpha = Except.ok res ∧
      in_int32 (accumulate (fun k => res.inp.sample r (c + k)) h_11 2 n) ∧
      in_int32 (accumulate (fun k => res.inter_1.sample (r + k) c) h_12 2 n) ∧
      in_int32 (accumulate (fun k => res.inp.sample r (c + k)) h_21 2 n) ∧
      in_int32 (accumulate (fun k => res.inter_2.sample (r + k) c) h_22 2 n) := by
  obtain ⟨⟨w0, g0⟩, ⟨w1, g1⟩, ⟨w2, g2⟩, ⟨f0, f1, f2⟩, ⟨b0, b1, b2⟩, _⟩ := hcons
  have b0' : 2 ≤ s.inp.border := by exact_mod_cast b0
  have b1' : 2 ≤ s.inter_1.border := by exact_mod_cast b1
  have b2' : 2 ≤ s.inter_2.border := by exact_mod_cast b2
  have hres := apply_LOG_filter_ok ({ s with inp := s.inp.perform_boundary_extension })
    h_11 h_12 h_21 h_22 2 21 alpha ⟨b0, b1, b2⟩
  refine ⟨_, hres, ?_, ?_, ?_, ?_⟩
  · exact (horizontal_accumulate_bound s.inp f0 b0' h8 (by omega) h_11 taps_11_sigma_05 k11
      rfl 1524291935 (by decide) (by decide) (by decide) (by norm_num) r c (by omega)
      (by omega) n hn).1
  · refine vertical_accumulate_bound (level_shift s.inp.perform_boundary_extension) s.inter_1
      s.out.height s.out.width h_11 h_12 taps_12_sigma_05 727 f1 w1 g1 b1' (by omega) k12 rfl
      ?_ (by decide) r c hr hc n hn
    intro r' c' hr' hc'
    exact inter_value_natAbs_le _ h_11 2 r' c' 1524291935
      (horizontal_accumulate_bound s.inp f0 b0' h8 (by omega) h_11 taps_11_sigma_05 k11
        rfl 1524291935 (by decide) (by decide) (by decide) (by norm_num) r' c' (by omega)
        (by omega) 5 (Nat.le_refl 5)).2 (by norm_num)
  · exact (horizontal_accumulate_bound s.inp f0 b0' h8 (by omega) h_21 taps_12_sigma_05 k21
      rfl 377415189 (by decide) (by decide) (by decide) (by norm_num) r c (by omega)
      (by omega) n hn).1
  · refine vertical_accumulate_bound (level_shift s.inp.perform_boundary_extension) s.inter_2
      s.out.height s.out.width h_21 h_22 taps_11_sigma_05 180 f2 w2 g2 b2' (by omega) k22 rfl
      ?_ (by decide) r c hr hc n hn
    intro r' c' hr' hc'
    exact inter_value_natAbs_le _ h_21 2 r' c' 377415189
      (horizontal_accumulate_bound s.inp f0 b0' h8 (by omega) h_21 taps_12_sigma_05 k21
        rfl 377415189 (by decide) (by decide) (by decide) (by norm_num) r' c' (by omega)
        (by omega) 5 (Nat.le_refl 5)).2 (by norm_num)

/-! ## Kernels and mirrored images: lemmas -/

theorem eight_bit_of_pixels (b : my_image_comp Int) (h : eight_bit_pixels b) : eight_bit b :=
  fun r c hr hc => h (r, c) ((mem_pixels _ _ _).2 ⟨hr, hc⟩)

theorem getD_map_range {α : Type} (f : Nat → α) (n i : Nat) (d : α) (hi : i < n) :
    ((List.range n).map f).getD i d = f i := by
  rw [List.getD_eq_getElem _ _ (by simpa using hi)]
  simp

theorem float_kernel_getD (g : Int → ℚ) (H i : Nat) (hi : i ≤ 2 * H) :
    (float_kernel g H).getD i 0 = g (((i : Int) - H) * ((i : Int) - H)) := by
  unfold float_kernel
  exact getD_map_range _ _ _ _ (by omega)

theorem integer_kernel_getD (g : Int → ℚ) (H : Nat) (K : Int) (i : Nat) (hi : i ≤ 2 * H) :
    (integer_kernel g H K).getD i 0 =
      scaled_tap (g (((i : Int) - H) * ((i : Int) - H))) K := by
  unfold integer_kernel float_kernel
  rw [List.map_map]
  exact getD_map_range _ _ _ _ (by omega)

/-- The taps depend on `location` through `location * location` only, so every
integer kernel is symmetric. -/
theorem integer_kernel_symmetric (g : Int → ℚ) (H : Nat) (K : Int) :
    symmetric_kernel (integer_kernel g H K) H := by
  intro i hi
  rw [integer_kernel_getD g H K i hi, integer_kernel_getD g H K (2 * H - i) (by omega)]
  have e : ((2 * H - i : Nat) : Int) - H = -((i : Int) - H) := by
    rw [Nat.cast_sub hi]
    push_cast
    ring
  rw [e, neg_mul_neg]

/-- A value within less than a half of an integer rounds to that integer. -/
theorem round_half_away_near (x : ℚ) (n : Int) (h : |x - n| < 1 / 2) :
    round_half_away x = n := by
  rw [abs_lt] at h
  unfold round_half_away
  split_ifs with h0
  · rw [Int.floor_eq_iff]
    constructor <;> linarith [h.1, h.2]
  · rw [Int.ceil_eq_iff]
    constructor <;> linarith [h.1, h.2]

/-- The integer kernel for `H = 2`, tap by tap. -/
theorem integer_kernel_two (g : Int → ℚ) (K : Int) :
    integer_kernel g 2 K = [scaled_tap (g 4) K, scaled_tap (g 1) K, scaled_tap (g 0) K,
      scaled_tap (g 1) K, scaled_tap (g 4) K] := rfl

/-- Lines 143-149 turn the float taps of `sigma = 0.5` into `h_11_sigma_05`. -/
theorem integer_kernel_11_sigma_05 : integer_kernel h_11_f_sigma_05 2 21 = h_11_sigma_05 := by
  have t4 : scaled_tap (h_11_f_sigma_05 4) 21 = 26872 := by
    unfold scaled_tap
    apply round_half_away_near
    norm_num [h_11_f_sigma_05, abs_lt]
  have t1 : scaled_tap (h_11_f_sigma_05 1) 21 = 2168215 := by
    unfold scaled_tap
    apply round_half_away_near
    norm_num [h_11_f_sigma_05, abs_lt]
  have t0 : scaled_tap (h_11_f_sigma_05 0) 21 = -5340354 := by
    unfold scaled_tap
    apply round_half_away_near
    norm_num [h_11_f_sigma_05, abs_lt]
  rw [integer_kernel_two, t4, t1, t0]
  rfl

/-- Lines 143-149 turn the float taps of `sigma = 0.5` into `h_12_sigma_05`. -/
theorem integer_kernel_12_sigma_05 : integer_kernel h_12_f_sigma_05 2 21 = h_12_sigma_05 := by
  have t4 : scaled_tap (h_12_f_sigma_05 4) 21 = 704 := by
    unfold scaled_tap
    apply round_half_away_near
    norm_num [h_12_f_sigma_05, abs_lt]
  have t1 : scaled_tap (h_12_f_sigma_05 1) 21 = 283819 := by
    unfold scaled_tap
    apply round_half_away_near
    norm_num [h_12_f_sigma_05, abs_lt]
  have t0 : scaled_tap (h_12_f_sigma_05 0) 21 = 2097152 := by
    unfold scaled_tap
    apply round_half_away_near
    norm_num [h_12_f_sigma_05, abs_lt]
  rw [integer_kernel_two, t4, t1, t0]
  rfl

/-- Line 126 gives `K = 21` for the gain of `sigma = 0.5`. -/
theorem shift_K_sigma_05 : shift_K gain_sigma_05 = 21 := by
  rw [shift_K_eq_clog _ (by norm_num [gain_sigma_05]) (by norm_num [gain_sigma_05]),
    int_clog_two_eq gain_sigma_05 3 (by norm_num [gain_sigma_05])
      (by norm_num [gain_sigma_05])]
  rfl

/-- C17: for `sigma = 0.5` (`H = 2`, for which line 126 gives `K = 21`), for
integer kernels within eight units of the taps that lines 143-149 produce, and
for every 8-bit image with `min(width, height) > 2`, the pipeline of `main`
returns, and at every pixel no accumulator of the horizontal or the vertical
stage of either path leaves the signed 32-bit range, after any number of
passes of the inner loop.  The un-shifted border samples that the horizontal
stages read and the single-precision rounding of every step are accounted
for. -/
theorem sigma_05_no_overflow (s : LOG_buffers) (h_11 h_12 h_21 h_22 : List Int) (alpha : ℚ)
    (hcons : s.consistent 2) (h8 : eight_bit s.inp)
    (hsize : 2 < min s.out.width s.out.height)
    (k11 : within_taps h_11 taps_11_sigma_05) (k12 : within_taps h_12 taps_12_sigma_05)
    (k21 : within_taps h_21 taps_12_sigma_05) (k22 : within_taps h_22 taps_11_sigma_05)
    (r c : Int) (hr : 0 ≤ r ∧ r < s.out.height) (hc : 0 ≤ c ∧ c < s.out.width) (n : Nat)
    (hn : n ≤ 5) :
    ∃ res, main_filter s h_11 h_12 h_21 h_22 2 21 alpha = Except.ok res ∧
      accumulators_in_range res h_11 h_12 h_21 h_22 2 r c n :=
  sigma_05_accumulators s h_11 h_12 h_21 h_22 alpha hcons h8 hsize k11 k12 k21 k22 r c hr hc
    n hn

theorem sigma_05_no_overflow_witness :
    (fresh_buffers sample_3x3).consistent 2 ∧ eight_bit_pixels sample_3x3 ∧
    within_taps h_11_sigma_05 taps_11_sigma_05 ∧ within_taps h_12_sigma_05 taps_12_sigma_05 ∧
    ∃ res, main_filter (fresh_buffers sample_3x3) h_11_sigma_05 h_12_sigma_05 h_12_sigma_05
        h_11_sigma_05 2 21 1 = Except.ok res ∧
      accumulators_in_range res h_11_sigma_05 h_12_sigma_05 h_12_sigma_05 h_11_sigma_05 2 1 1
        5 :=
  ⟨by decide, by decide, by decide, by decide,
    sigma_05_no_overflow (fresh_buffers sample_3x3) h_11_sigma_05 h_12_sigma_05 h_12_sigma_05
      h_11_sigma_05 1 (by decide) (eight_bit_of_pixels _ (by decide)) (by decide) (by decide)
      (by decide) (by decide) (by decide) 1 1 (by decide) (by decide) 5 (by decide)⟩

/-- C13 fails on the code.  For `sigma = 0.5` and `alpha = 1` the pipeline of
`main` returns on the all-zero 5 by 5 image, no accumulator leaves the 32-bit
range, and the centre pixel `(2, 2)`, which reads no border sample, gets the
partial results 72 and 73 and the byte 255, not 128: the taps of `h_11` add up
to -950180, not to 0.  For `sigma = 1` (`K = 23`) the result is not defined:
at the centre pixel `(3, 3)` of the all-zero 7 by 7 image, which reads the
level-shifted value -128 seven times, the accumulator of the second horizontal
stage is outside the 32-bit range after five passes. -/
theorem all_zeros_not_flat :
    (∃ res, main_filter (fresh_buffers black_5x5) h_11_sigma_05 h_12_sigma_05 h_12_sigma_05
        h_11_sigma_05 2 21 ((1 : Int) : ℚ) = Except.ok res ∧
      (∀ r c : Int, 0 ≤ r ∧ r < 5 → 0 ≤ c ∧ c < 5 → ∀ n, n ≤ 5 →
        accumulators_in_range res h_11_sigma_05 h_12_sigma_05 h_12_sigma_05 h_11_sigma_05 2
          r c n) ∧
      res.y1.sample 2 2 = 72 ∧ res.y2.sample 2 2 = 73 ∧ output_byte res.out 2 2 = 255) ∧
    h_11_sigma_05.sum = -950180 ∧
    (∀ k : Int, -3 ≤ k ∧ k ≤ 3 →
      (level_shift (flat_buffer 7 7 3 0).perform_boundary_extension).sample 3 (3 + k) = -128) ∧
    accumulate (fun k => (level_shift (flat_buffer 7 7 3 0).perform_boundary_extension).sample 3
      (3 + k)) h_12_sigma_1 3 5 = -2533499904 ∧
    ¬ in_int32 (accumulate
      (fun k => (level_shift (flat_buffer 7 7 3 0).perform_boundary_extension).sample 3 (3 + k))
      h_12_sigma_1 3 5) := by
  obtain ⟨res, hres⟩ := main_filter_ok (fresh_buffers black_5x5) h_11_sigma_05 h_12_sigma_05
    h_12_sigma_05 h_11_sigma_05 2 21 ((1 : Int) : ℚ) (by decide)
  obtain ⟨e1, e2, e3⟩ := main_filter_pixel (fresh_buffers black_5x5) res h_11_sigma_05
    h_12_sigma_05 h_12_sigma_05 h_11_sigma_05 2 21 ((1 : Int) : ℚ) (by decide) (by decide)
    hres 2 2 (by decide) (by decide)
  have v1 : path_value (level_shift (fresh_buffers black_5x5).inp.perform_boundary_extension)
      (fresh_buffers black_5x5).out.height h_11_sigma_05 h_12_sigma_05 2 21 2 2 = 72 := by
    set_option maxRecDepth 100000 in decide
  have v2 : path_value (level_shift (fresh_buffers black_5x5).inp.perform_boundary_extension)
      (fresh_buffers black_5x5).out.height h_12_sigma_05 h_11_sigma_05 2 21 2 2 = 73 := by
    set_option maxRecDepth 100000 in decide
  rw [v1, v2] at e3
  rw [v1] at e1
  rw [v2] at e2
  have hs : ∀ k : Int, -3 ≤ k ∧ k ≤ 3 →
      (level_shift (flat_buffer 7 7 3 0).perform_boundary_extension).sample 3 (3 + k) =
        -128 := by
    intro k hk
    rw [shifted_input_interior (flat_buffer 7 7 3 0) (by decide) (by decide) 3 (3 + k)
      (by decide) ⟨by omega, by show 3 + k < 7; omega⟩]
    have e0 : (flat_buffer 7 7 3 0).sample 3 (3 + k) = 0 := rfl
    rw [e0]
    decide
  have ha : accumulate
      (fun k => (level_shift (flat_buffer 7 7 3 0).perform_boundary_extension).sample 3 (3 + k))
      h_12_sigma_1 3 5 = -2533499904 := by
    rw [accumulate_congr _ (fun _ => -128) h_12_sigma_1 3 5
      (fun i hi => hs ((i : Int) - (3 : Nat)) (by omega))]
    decide
  refine ⟨⟨res, hres, ?_, e1, e2, ?_⟩, by decide, hs, ha, ?_⟩
  · intro r c hr hc n hn
    obtain ⟨q, hq, hacc⟩ := sigma_05_accumulators (fresh_buffers black_5x5) h_11_sigma_05
      h_12_sigma_05 h_12_sigma_05 h_11_sigma_05 ((1 : Int) : ℚ) (by decide)
      (eight_bit_of_pixels _ (by decide)) (by decide) (by decide) (by decide) (by decide)
      (by decide) r c hr hc n hn
    have eq : q = res := Except.ok.inj (hq.symm.trans hres)
    rw [eq] at hacc
    exact hacc
  · rw [output_byte_of_sample res.out 2 2 72 73 1 e3]
    decide
  · rw [ha]
    decide

/-- C19 fails on the code.  The integer kernels are symmetric, whatever the
float taps (a tap depends on `location * location` only; `h_22` is built as
`h_11` and `h_21` as `h_12`).  But the horizontal stages add the products from
left to right in single precision, and the rounding depends on the order: for
`sigma = 0.5` and `alpha = 1` the two 3 by 3 images are mirror images of each
other, both runs return and no accumulator leaves the 32-bit range, yet the
centre pixel `(1, 1)`, which is its own mirror image, gets the byte 128 for the
one image and 127 for the other. -/
theorem mirror_equivariance_fails :
    (∀ (g : Int → ℚ) (H : Nat) (K : Int), symmetric_kernel (integer_kernel g H K) H) ∧
    symmetric_kernel h_11_sigma_05 2 ∧ symmetric_kernel h_12_sigma_05 2 ∧
    mirror_image sample_3x3 sample_3x3_mirrored ∧
    ∃ res res', main_filter (fresh_buffers sample_3x3) h_11_sigma_05 h_12_sigma_05
        h_12_sigma_05 h_11_sigma_05 2 21 ((1 : Int) : ℚ) = Except.ok res ∧
      main_filter (fresh_buffers sample_3x3_mirrored) h_11_sigma_05 h_12_sigma_05
        h_12_sigma_05 h_11_sigma_05 2 21 ((1 : Int) : ℚ) = Except.ok res' ∧
      (∀ r c : Int, 0 ≤ r ∧ r < 3 → 0 ≤ c ∧ c < 3 → ∀ n, n ≤ 5 →
        accumulators_in_range res h_11_sigma_05 h_12_sigma_05 h_12_sigma_05 h_11_sigma_05 2
          r c n ∧
        accumulators_in_range res' h_11_sigma_05 h_12_sigma_05 h_12_sigma_05 h_11_sigma_05 2
          r c n) ∧
      (res.y1.sample 1 1 = 21 ∧ res.y2.sample 1 1 = -21 ∧ output_byte res.out 1 1 = 128) ∧
      (res'.y1.sample 1 1 = 21 ∧ res'.y2.sample 1 1 = -22 ∧
        output_byte res'.out 1 1 = 127) := by
  obtain ⟨res, hres⟩ := main_filter_ok (fresh_buffers sample_3x3) h_11_sigma_05 h_12_sigma_05
    h_12_sigma_05 h_11_sigma_05 2 21 ((1 : Int) : ℚ) (by decide)
  obtain ⟨res', hres'⟩ := main_filter_ok (fresh_buffers sample_3x3_mirrored) h_11_sigma_05
    h_12_sigma_05 h_12_sigma_05 h_11_sigma_05 2 21 ((1 : Int) : ℚ) (by decide)
  obtain ⟨a1, a2, e⟩ := main_filter_pixel (fresh_buffers sample_3x3) res h_11_sigma_05
    h_12_sigma_05 h_12_sigma_05 h_11_sigma_05 2 21 ((1 : Int) : ℚ) (by decide) (by decide)
    hres 1 1 (by decide) (by decide)
  obtain ⟨a1', a2', e'⟩ := main_filter_pixel (fresh_buffers sample_3x3_mirrored) res'
    h_11_sigma_05 h_12_sigma_05 h_12_sigma_05 h_11_sigma_05 2 21 ((1 : Int) : ℚ) (by decide)
    (by decide) hres' 1 1 (by decide) (by decide)
  have v1 : path_value (level_shift (fresh_buffers sample_3x3).inp.perform_boundary_extension)
      (fresh_buffers sample_3x3).out.height h_11_sigma_05 h_12_sigma_05 2 21 1 1 = 21 := by
    set_option maxRecDepth 100000 in decide
  have v2 : path_value (level_shift (fresh_buffers sample_3x3).inp.perform_boundary_extension)
      (fresh_buffers sample_3x3).out.height h_12_sigma_05 h_11_sigma_05 2 21 1 1 = -21 := by
    set_option maxRecDepth 100000 in decide
  have v1' : path_value
      (level_shift (fresh_buffers sample_3x3_mirrored).inp.perform_boundary_extension)
      (fresh_buffers sample_3x3_mirrored).out.height h_11_sigma_05 h_12_sigma_05 2 21 1 1 =
        21 := by
    set_option maxRecDepth 100000 in decide
  have v2' : path_value
      (level_shift (fresh_buffers sample_3x3_mirrored).inp.perform_boundary_extension)
      (fresh_buffers sample_3x3_mirrored).out.height h_12_sigma_05 h_11_sigma_05 2 21 1 1 =
        -22 := by
    set_option maxRecDepth 100000 in decide
  rw [v1, v2] at e
  rw [v1', v2'] at e'
  rw [v1] at a1
  rw [v2] at a2
  rw [v1'] at a1'
  rw [v2'] at a2'
  refine ⟨fun g H K => integer_kernel_symmetric g H K, by decide, by decide, by decide,
    res, res', hres, hres', ?_, ⟨a1, a2, ?_⟩, ⟨a1', a2', ?_⟩⟩
  · intro r c hr hc n hn
    obtain ⟨q, hq, hacc⟩ := sigma_05_accumulators (fresh_buffers sample_3x3) h_11_sigma_05
      h_12_sigma_05 h_12_sigma_05 h_11_sigma_05 ((1 : Int) : ℚ) (by decide)
      (eight_bit_of_pixels _ (by decide)) (by decide) (by decide) (by decide) (by decide)
      (by decide) r c hr hc n hn
    obtain ⟨q', hq', hacc'⟩ := sigma_05_accumulators (fresh_buffers sample_3x3_mirrored)
      h_11_sigma_05 h_12_sigma_05 h_12_sigma_05 h_11_sigma_05 ((1 : Int) : ℚ) (by decide)
      (eight_bit_of_pixels _ (by decide)) (by decide) (by decide) (by decide) (by decide)
      (by decide) r c hr hc n hn
    have eq : q = res := Except.ok.inj (hq.symm.trans hres)
    have eq' : q' = res' := Except.ok.inj (hq'.symm.trans hres')
    rw [eq] at hacc
    rw [eq'] at hacc'
    exact ⟨hacc, hacc'⟩
  · rw [output_byte_of_sample res.out 1 1 21 (-21) 1 e]
    decide
  · rw [output_byte_of_sample res'.out 1 1 21 (-22) 1 e']
    decide

end Project2
